import Mathlib

/-!
Verification of the fortepyan MIDI codec against its specification.

The Python sources (`fortepyan/midi/tools.py`, `fortepyan/midi/structures.py`,
`fortepyan/midi/containers.py`) are shallowly embedded below: pandas
DataFrames become lists of row structures, times are exact rationals, ticks
are naturals, and fallible code returns `Except`.
-/

namespace Fortepyan

/-! ## Data model -/

/-- A row of the note DataFrame: columns `pitch`, `start`, `end`.
`end` is a Lean keyword, so that column is called `end_` here.  The
`duration` column is derived (`end - start`) and is not stored. -/
structure NoteRow where
  pitch : ℤ
  start : ℚ
  end_ : ℚ
  deriving DecidableEq, Repr

/-- A row of the sustain (control-change) DataFrame: columns `time`, `value`. -/
structure SusRow where
  time : ℚ
  value : ℤ
  deriving DecidableEq, Repr

/-! ## Sustain Projector (`fortepyan/midi/tools.py`) -/

/-- `sustain.value >= sustain_threshold` (tools.py line 41). -/
def isDown (thr : ℤ) (r : SusRow) : Bool :=
  decide (r.value ≥ thr)

/-- Helper for `groupRuns`: `acc` is the current run of rows sharing one
`is_down` value, held in reverse; a row whose `is_down` differs from the
previous row's closes the run, exactly as the `cumsum` of
`ids != ids.shift(1)` starts a new group index there. -/
def groupRunsGo (thr : ℤ) (acc : List SusRow) : List SusRow → List (List SusRow)
  | [] => [acc.reverse]
  | x :: xs =>
    match acc with
    | [] => groupRunsGo thr [x] xs
    | a :: _ =>
      if isDown thr x == isDown thr a then groupRunsGo thr (x :: acc) xs
      else acc.reverse :: groupRunsGo thr [x] xs

/-- `(ids != ids.shift(1)).cumsum()` assigns one group index to each maximal
run of consecutive rows with equal `is_down` (tools.py lines 44-45); the
group indices are increasing in row order, so `groupby` yields the runs in
row order. -/
def groupRuns (thr : ℤ) : List SusRow → List (List SusRow)
  | [] => []
  | r :: rs => groupRunsGo thr [r] rs

/-- The pedal-down runs: `sustain[sustain.is_down].groupby("down_index")`
iterates exactly the runs whose `is_down` is true (tools.py line 46). -/
def downGroups (thr : ℤ) (l : List SusRow) : List (List SusRow) :=
  (groupRuns thr l).filter fun g => ((g.head?).map (isDown thr)).getD false

/-- `Series.min()` of a list of rationals (`0` for an empty list; the code
only evaluates it on nonempty selections). -/
def qMin : List ℚ → ℚ
  | [] => 0
  | x :: xs => xs.foldl min x

/-- `Series.max()` of a list of rationals (`0` for an empty list). -/
def qMax : List ℚ → ℚ
  | [] => 0
  | x :: xs => xs.foldl max x

/-- `df[(df.pitch == row.pitch) & (df.start > row.start)].start.min()` when
that selection is nonempty (tools.py lines 105-110). -/
def nextStart (df : List NoteRow) (pitch : ℤ) (start : ℚ) : Option ℚ :=
  let starts := (df.filter fun n => n.pitch == pitch && start < n.start).map (·.start)
  if starts.isEmpty then none else some (qMin starts)

/-- One `sustain_notes` pass (tools.py lines 71-120): every note whose `end`
lies in `[pedal_down, pedal_up)` gets a new end — `min` of the next same-pitch
start and `pedal_up` when a later same-pitch note exists, otherwise `max` of
its own end and `pedal_up`.  `df.loc[ids, "end"] = end_times` updates all
selected rows at once, i.e. a map over the rows. -/
def sustainNotes (df : List NoteRow) (pd pu : ℚ) : List NoteRow :=
  df.map fun r =>
    if pd ≤ r.end_ ∧ r.end_ < pu then
      { r with end_ :=
          match nextStart df r.pitch r.start with
          | some s => min s pu
          | none => max r.end_ pu }
    else r

/-- `apply_sustain` (tools.py lines 5-68): fold `sustain_notes` over the
pedal-down runs in row order, each run contributing
`pedal_down = gdf.time.min()` and `pedal_up = gdf.time.max()`. -/
def applySustain (df : List NoteRow) (sustain : List SusRow) (thr : ℤ) : List NoteRow :=
  (downGroups thr sustain).foldl
    (fun d g => sustainNotes d (qMin (g.map (·.time))) (qMax (g.map (·.time)))) df

/-! ## Claim C10: what the caller's objects look like after `apply_sustain`

`apply_sustain` never copies its arguments.  `sustain["is_down"] = ...` and
`sustain["down_index"] = ...` (tools.py lines 41, 45) add two columns to the
caller's sustain DataFrame in place, and `df.loc[ids, "end"] = end_times`
(line 118) together with `df["duration"] = df.end - df.start` (line 66)
mutate the caller's note DataFrame in place; the returned DataFrame is that
same object. -/

/-- One row of the caller's sustain DataFrame after the call:
`(time, value, is_down, down_index)`.  `prev` is the previous row's
`is_down` (`none` on the first row, where `ids.shift(1)` is NaN and the
comparison is always True, so the index starts at 1). -/
def annotateGo (thr : ℤ) (prev : Option Bool) (idx : ℕ) :
    List SusRow → List (ℚ × ℤ × Bool × ℕ)
  | [] => []
  | r :: rs =>
    let d := isDown thr r
    let idx' := if prev == some d then idx else idx + 1
    (r.time, r.value, d, idx') :: annotateGo thr (some d) idx' rs

/-- The caller's sustain DataFrame after `apply_sustain` returns. -/
def annotateSustain (thr : ℤ) (sus : List SusRow) : List (ℚ × ℤ × Bool × ℕ) :=
  annotateGo thr none 0 sus

/-- The state visible to the caller of `apply_sustain` once it returns:
the returned table, the caller's note DataFrame, and the caller's sustain
DataFrame (its column names and its rows). -/
structure SustainCallState where
  retNotes : List NoteRow
  callerNotes : List NoteRow
  callerSustainCols : List String
  callerSustainRows : List (ℚ × ℤ × Bool × ℕ)
  deriving DecidableEq, Repr

/-- Calling `apply_sustain(df, sustain, thr)`: the returned object and the
caller's `df` are one and the same mutated DataFrame, and the caller's
`sustain` has gained the `is_down` and `down_index` columns. -/
def applySustainCall (df : List NoteRow) (sus : List SusRow) (thr : ℤ) :
    SustainCallState :=
  { retNotes := applySustain df sus thr
  , callerNotes := applySustain df sus thr
  , callerSustainCols := ["time", "value", "is_down", "down_index"]
  , callerSustainRows := annotateSustain thr sus }

/-! ## Analysis of `apply_sustain` as a per-note fold

Each `sustain_notes` pass only rewrites the `end` column, and the rewrite of
one row depends on the row's own `end`, on its fixed `pitch`/`start`, and on
the `pitch`/`start` columns of the whole table — never on another row's
`end`.  So `apply_sustain` acts on every note independently, folding the
following step function over the pedal-down runs. -/

/-- The new `end` of a single note for one pedal-down run, given the
(fixed) start of the next note of the same pitch, if any. -/
def sustainStep (ns : Option ℚ) (pd pu e : ℚ) : ℚ :=
  if pd ≤ e ∧ e < pu then
    match ns with
    | some s => min s pu
    | none => max e pu
  else e

/-- The `(pedal_down, pedal_up)` interval of each pedal-down run. -/
def runsOf (thr : ℤ) (sus : List SusRow) : List (ℚ × ℚ) :=
  (downGroups thr sus).map fun g => (qMin (g.map (·.time)), qMax (g.map (·.time)))

/-! ## Event Stream Decoder: note-off handling
(`MidiFile._load_instruments`, structures.py lines 766-803) -/

/-- A decoded `Note` (containers.py `Note(velocity, pitch, start, end)`). -/
structure DecNote where
  velocity : ℕ
  pitch : ℕ
  start : ℚ
  end_ : ℚ
  deriving DecidableEq, Repr

/-- The note-off step of `_load_instruments` for one `(channel, pitch)` key
(structures.py lines 766-803).  `opens` is `last_note_on[key]`, the list of
open `(start_tick, velocity)` pairs (nonempty whenever the key is present);
`endTick` is the absolute tick of the note-off event; `ttt` is the
tick-to-time array `self.__tick_to_time`.  Returns the closed notes
(appended to the instrument) and the new state of the key: `some kept` when
the open list is reassigned to the same-tick entries, `none` when the key
is deleted from `last_note_on`. -/
def handleNoteOff (ttt : ℕ → ℚ) (pitch : ℕ) (opens : List (ℕ × ℕ)) (endTick : ℕ) :
    List DecNote × Option (List (ℕ × ℕ)) :=
  let notesToClose := opens.filter fun p => decide (p.1 ≠ endTick)
  let notesToKeep := opens.filter fun p => decide (p.1 = endTick)
  let closed := notesToClose.map fun p =>
    ({ velocity := p.2, pitch := pitch, start := ttt p.1, end_ := ttt endTick } : DecNote)
  if 0 < notesToClose.length ∧ 0 < notesToKeep.length then
    (closed, some notesToKeep)
  else
    (closed, none)

/-! ## Tick-Time Mapper (`MidiFile`, structures.py) -/

/-- `MAX_TICK = 1e10` (structures.py line 17).  `1e10` is exactly
representable as a float, so comparing an integer tick against it is the
integer comparison against `10^10`. -/
def maxTickCeiling : ℕ := 10 ^ 10

/-- Python's `max` over a list of naturals (`0` for an empty list; the code
only applies it to nonempty lists). -/
def natMax (l : List ℕ) : ℕ := l.foldl max 0

/-- The tick scale of a tempo event:
`60.0 / ((6e7 / event.tempo) * resolution)` (structures.py line 600; lines
595-596 compute the same value through `bpm = 6e7 / event.tempo`). -/
def tickScaleOf (tempo : ℕ) (res : ℕ) : ℚ :=
  60 / ((60000000 / (tempo : ℚ)) * res)

/-- `_load_tempo_changes` (structures.py lines 571-603): `events` is the
list of `(absolute tick, tempo)` pairs of the `set_tempo` events on track 0,
in track order.  The list starts as the default 120 BPM entry at tick 0; an
event at tick 0 replaces the whole list, an event at tick > 0 appends a new
entry unless its scale repeats the previous entry's scale. -/
def loadTempoChanges (events : List (ℕ × ℕ)) (res : ℕ) : List (ℕ × ℚ) :=
  events.foldl
    (fun ts e =>
      if e.1 = 0 then [(0, tickScaleOf e.2 res)]
      else
        match ts.getLast? with
        | some last =>
          if tickScaleOf e.2 res ≠ last.2 then ts ++ [(e.1, tickScaleOf e.2 res)]
          else ts
        | none => ts)
    [(0, 60 / (120 * (res : ℚ)))]

/-- One numpy slice assignment
`table[s : s + len] = [f 0, f 1, ..., f (len - 1)]`. -/
def writeSlice (tbl : List ℚ) (s len : ℕ) (f : ℕ → ℚ) : List ℚ :=
  tbl.take s ++ (List.range len).map f ++ tbl.drop (s + len)

/-- The loop of `_update_tick_to_time` (structures.py lines 668-680): each
consecutive pair of scale entries writes
`table[start:end+1] = last_end + scale * arange(end - start + 1)` and
reloads `last_end = table[end]`; the final entry writes `table[start:]`
with the last scale. -/
def buildTbl (maxTick : ℕ) : List (ℕ × ℚ) → List ℚ → ℚ → List ℚ
  | [], tbl, _ => tbl
  | [(s, σ)], tbl, lastEnd =>
      writeSlice tbl s (maxTick + 1 - s) fun i => lastEnd + σ * i
  | (s, σ) :: (e, σ') :: rest, tbl, lastEnd =>
      let tbl' := writeSlice tbl s (e - s + 1) fun i => lastEnd + σ * i
      buildTbl maxTick ((e, σ') :: rest) tbl' (tbl'.getD e 0)

/-- `_update_tick_to_time` (structures.py lines 656-680): raise `max_tick`
to the largest scale tick if needed, allocate `np.zeros(max_tick + 1)`, and
integrate the scales piecewise. -/
def updateTickToTime (scales : List (ℕ × ℚ)) (maxTick0 : ℕ) : List ℚ :=
  let maxScaleTick := natMax (scales.map (·.1))
  let maxTick := if maxTick0 > maxScaleTick then maxTick0 else maxScaleTick
  buildTbl maxTick scales (List.replicate (maxTick + 1) 0) 0

/-- `get_max_tick` (structures.py lines 541-542): the largest absolute
event tick over all tracks, plus one. -/
def getMaxTick (tracks : List (List ℕ)) : ℕ :=
  natMax (tracks.map natMax) + 1

/-- The corruption guard of `_process_midi_file` (structures.py lines
482-490): the tick-to-time table is built only when
`max_tick <= MAX_TICK`; otherwise decoding aborts with a `ValueError`
before any table is allocated. -/
def processMidiGuard (tracks : List (List ℕ)) (scales : List (ℕ × ℚ)) :
    Except String (List ℚ) :=
  let maxTick := getMaxTick tracks
  if maxTick > maxTickCeiling then
    Except.error "MIDI file has a largest tick, it is likely corrupt"
  else
    Except.ok (updateTickToTime scales maxTick)

/-- `tick_to_time` (structures.py lines 817-841): a tick at or beyond
`MAX_TICK` raises `IndexError` before the table-extension check runs;
otherwise the table is regrown if the tick is beyond coverage and then
indexed. -/
def tickToTime (tbl : List ℚ) (scales : List (ℕ × ℚ)) (tick : ℕ) :
    Except String ℚ :=
  if tick ≥ maxTickCeiling then Except.error "Supplied tick is too large."
  else
    let tbl' := if tick ≥ tbl.length then updateTickToTime scales tick else tbl
    Except.ok (tbl'.getD tick 0)

/-- `np.searchsorted(a, v, side="left")` on a sorted array: the index of
the first element `≥ v`, i.e. the number of leading elements `< v`. -/
def searchsortedLeft (a : List ℚ) (v : ℚ) : ℕ :=
  (a.takeWhile fun x => decide (x < v)).length

/-- Python 3 `round`: banker's rounding, halves to the even integer. -/
def pyRound (q : ℚ) : ℤ :=
  if q - ⌊q⌋ < 1/2 then ⌊q⌋
  else if 1/2 < q - ⌊q⌋ then ⌊q⌋ + 1
  else if ⌊q⌋ % 2 = 0 then ⌊q⌋ else ⌊q⌋ + 1

/-- `time_to_tick` (structures.py lines 892-922): binary search for the
insertion point; extrapolate with the final tick scale when the time is past
the end of the table (`int(round(.))`); otherwise return the insertion point
or its predecessor, whichever is strictly closer (the predecessor only when
strictly closer). -/
def timeToTick (tbl : List ℚ) (scales : List (ℕ × ℚ)) (time : ℚ) : ℤ :=
  let tick := searchsortedLeft tbl time
  if tick = tbl.length then
    let t := tick - 1
    let finalScale := ((scales.getLast?).map (·.2)).getD 0
    pyRound ((t : ℚ) + (time - tbl.getD t 0) / finalScale)
  else if tick ≠ 0 ∧ |time - tbl.getD (tick - 1) 0| < |time - tbl.getD tick 0| then
    (tick : ℤ) - 1
  else
    (tick : ℤ)

/-! ## Event Stream Encoder: the conductor track's tempo events
(`MidiFile.write`, structures.py lines 985-994) -/

/-- Python `int()`: truncation toward zero. -/
def pyInt (q : ℚ) : ℤ := if 0 ≤ q then ⌊q⌋ else ⌈q⌉

/-- The tempo meta-events of the conductor track (structures.py lines
985-994): one `set_tempo` message per tick-scale entry, at the entry's
tick, with `tempo = int(6e7 / (60.0 / (tick_scale * resolution)))`. -/
def writeTempoEvents (scales : List (ℕ × ℚ)) (res : ℕ) : List (ℕ × ℤ) :=
  scales.map fun p => (p.1, pyInt (60000000 / (60 / (p.2 * res))))

/-! ## `MidiPiece.trim` (structures.py lines 107-181) -/

/-- A Python numeric argument: `isinstance(x, int)` distinguishes `int`
from `float`. -/
inductive PyNum where
  | int (n : ℤ)
  | float (q : ℚ)
  deriving DecidableEq, Repr

/-- The numeric value of a `PyNum`. -/
def PyNum.val : PyNum → ℚ
  | int n => (n : ℚ)
  | float q => q

/-- The exceptions `trim` can raise. -/
inductive PyErr where
  | valueError (msg : String)
  | indexError (msg : String)
  | notImplementedError (msg : String)
  deriving DecidableEq, Repr

/-- `MidiPiece.trim` (structures.py lines 154-181) up to the computation of
the row slice `[start_idx, finish_idx)` that is handed to `__getitem__`
(which only slices and time-shifts, and cannot raise on the ranges produced
here).  `df.length` is `self.size`. -/
def trim (df : List NoteRow) (start finish : PyNum) (sliceType : String) :
    Except PyErr (ℤ × ℤ) :=
  if sliceType = "index" then
    match start, finish with
    | PyNum.int a, PyNum.int b =>
      if a < 0 ∨ (df.length : ℤ) ≤ b then
        Except.error (PyErr.indexError "Index out of bounds.")
      else if b < a then
        Except.error (PyErr.valueError "'start' must be smaller than 'finish'.")
      else
        Except.ok (a, b + 1)
    | _, _ =>
      Except.error (PyErr.valueError
        "Using 'index' slice_type requires 'start' and 'finish' to be integers.")
  else if sliceType = "by_end" ∨ sliceType = "standard" then
    let ids := df.map fun r =>
      if sliceType = "by_end" then
        decide (start.val ≤ r.start) && decide (r.end_ ≤ finish.val)
      else
        decide (start.val ≤ r.start) && decide (r.start ≤ finish.val)
    let idx := (List.range df.length).filter fun i => ids.getD i false
    match idx.head?, idx.getLast? with
    | some i0, some i1 => Except.ok ((i0 : ℤ), (i1 : ℤ) + 1)
    | _, _ => Except.error (PyErr.indexError "No notes found in the specified range.")
  else
    Except.error (PyErr.notImplementedError "Slice type is not implemented.")

/-! ## `MidiFile.merge_files` -/

/-- A decoded File reduced to what merging and `get_end_time` see: note
rows and control-change times.  `get_end_time` (structures.py lines
857-878) maximizes over instrument end times (note ends and control-change
times), meta-event times and tempo-change times; the tick-scale list always
holds an entry at tick 0, so time `0` is always among the candidates, which
the definition of `getEndTime` records by seeding the list with `0`. -/
structure PFile where
  notes : List DecNote
  ccTimes : List ℚ
  deriving DecidableEq, Repr

/-- `get_end_time` / the `duration` property of `MidiFile`. -/
def getEndTime (f : PFile) : ℚ :=
  qMax (0 :: (f.notes.map (·.end_) ++ f.ccTimes))

/-- Shift every event of a File forward by `dt` seconds. -/
def shiftPFile (f : PFile) (dt : ℚ) : PFile :=
  { notes := f.notes.map fun n => { n with start := n.start + dt, end_ := n.end_ + dt }
  , ccTimes := f.ccTimes.map (· + dt) }

/-- Modelled from the spec: `MidiFile.merge_files(midi_files, space)` is
called by the test suite and the merge dashboard but its definition is not
among the provided sources.  Following the spec's merge property ("with
zero inter-file spacing") and the dashboard's description of `space` as the
"time interval inserted between files", each subsequent file is shifted to
start after the accumulated file's end time plus `space`, and the notes and
control changes are concatenated. -/
def mergeFiles : List PFile → ℚ → PFile
  | [], _ => { notes := [], ccTimes := [] }
  | f :: fs, space =>
      fs.foldl
        (fun acc g =>
          let dt := getEndTime acc + space
          { notes := acc.notes ++ (shiftPFile g dt).notes
          , ccTimes := acc.ccTimes ++ (shiftPFile g dt).ccTimes })
        f

theorem applySustain_eq_runs (df : List NoteRow) (sus : List SusRow) (thr : ℤ) :
    applySustain df sus thr
      = (runsOf thr sus).foldl (fun d p => sustainNotes d p.1 p.2) df := by
  simp [applySustain, runsOf, List.foldl_map]

theorem sustainNotes_eq_map (df : List NoteRow) (pd pu : ℚ) :
    sustainNotes df pd pu
      = df.map fun r =>
          { r with end_ := sustainStep (nextStart df r.pitch r.start) pd pu r.end_ } := by
  unfold sustainNotes sustainStep
  rw [List.map_inj_left]
  intro r _
  by_cases h : pd ≤ r.end_ ∧ r.end_ < pu
  · simp [h]
  · simp [h]

/-- The filtered start column used by `nextStart` ignores the `end` column,
so rewriting ends leaves it unchanged. -/
theorem filter_starts_map_end (df : List NoteRow) (f : NoteRow → ℚ) (p : ℤ) (s : ℚ) :
    (((df.map fun r => { r with end_ := f r }).filter
        fun n => n.pitch == p && decide (s < n.start)).map (·.start))
      = ((df.filter fun n => n.pitch == p && decide (s < n.start)).map (·.start)) := by
  induction df with
  | nil => rfl
  | cons a l ih =>
    simp only [List.map_cons, List.filter_cons]
    by_cases h : (a.pitch == p && decide (s < a.start)) = true
    · simp only [h, if_pos]
      simp [ih]
    · simp only [h]
      simp [ih, h]

theorem nextStart_map_end (df : List NoteRow) (f : NoteRow → ℚ) (p : ℤ) (s : ℚ) :
    nextStart (df.map fun r => { r with end_ := f r }) p s = nextStart df p s := by
  unfold nextStart
  rw [filter_starts_map_end]

/-- `apply_sustain` decomposed: the fold over runs acts on each note
independently through `sustainStep`, with the next-same-pitch start taken
from the original table (starts are never modified). -/
theorem foldRuns_eq_map (runs : List (ℚ × ℚ)) (df : List NoteRow) :
    runs.foldl (fun d p => sustainNotes d p.1 p.2) df
      = df.map fun r =>
          { r with
            end_ := runs.foldl
                      (fun e p => sustainStep (nextStart df r.pitch r.start) p.1 p.2 e)
                      r.end_ } := by
  induction runs generalizing df with
  | nil =>
    simp only [List.foldl_nil]
    exact (List.map_id df).symm
  | cons p runs ih =>
    simp only [List.foldl_cons]
    rw [ih, sustainNotes_eq_map]
    rw [List.map_map]
    rw [List.map_inj_left]
    intro r _
    show ({ r with end_ := runs.foldl _ _ } : NoteRow) = _
    rw [nextStart_map_end]

/-! ## Bounds for `qMin` and `qMax` -/

theorem foldl_min_le (x : ℚ) (xs : List ℚ) :
    xs.foldl min x ≤ x ∧ ∀ y ∈ xs, xs.foldl min x ≤ y := by
  induction xs generalizing x with
  | nil => simp
  | cons a as ih =>
    obtain ⟨h1, h2⟩ := ih (min x a)
    refine ⟨le_trans h1 (min_le_left _ _), ?_⟩
    intro y hy
    rcases List.mem_cons.mp hy with rfl | hy
    · exact le_trans h1 (min_le_right _ _)
    · exact h2 y hy

theorem le_foldl_max (x : ℚ) (xs : List ℚ) :
    x ≤ xs.foldl max x ∧ ∀ y ∈ xs, y ≤ xs.foldl max x := by
  induction xs generalizing x with
  | nil => simp
  | cons a as ih =>
    obtain ⟨h1, h2⟩ := ih (max x a)
    refine ⟨le_trans (le_max_left _ _) h1, ?_⟩
    intro y hy
    rcases List.mem_cons.mp hy with rfl | hy
    · exact le_trans (le_max_right _ _) h1
    · exact h2 y hy

theorem foldl_min_mem (x : ℚ) (xs : List ℚ) : xs.foldl min x = x ∨ xs.foldl min x ∈ xs := by
  induction xs generalizing x with
  | nil => simp
  | cons a as ih =>
    rcases ih (min x a) with h | h
    · rcases min_choice x a with hc | hc
      · exact Or.inl (h.trans hc)
      · exact Or.inr (List.mem_cons.mpr (Or.inl (h.trans hc)))
    · exact Or.inr (List.mem_cons.mpr (Or.inr h))

theorem foldl_max_mem (x : ℚ) (xs : List ℚ) : xs.foldl max x = x ∨ xs.foldl max x ∈ xs := by
  induction xs generalizing x with
  | nil => simp
  | cons a as ih =>
    rcases ih (max x a) with h | h
    · rcases max_choice x a with hc | hc
      · exact Or.inl (h.trans hc)
      · exact Or.inr (List.mem_cons.mpr (Or.inl (h.trans hc)))
    · exact Or.inr (List.mem_cons.mpr (Or.inr h))

theorem qMin_le_of_mem {l : List ℚ} {y : ℚ} (hy : y ∈ l) : qMin l ≤ y := by
  cases l with
  | nil => cases hy
  | cons x xs =>
    rcases List.mem_cons.mp hy with rfl | hy
    · exact (foldl_min_le y xs).1
    · exact (foldl_min_le x xs).2 y hy

theorem le_qMax_of_mem {l : List ℚ} {y : ℚ} (hy : y ∈ l) : y ≤ qMax l := by
  cases l with
  | nil => cases hy
  | cons x xs =>
    rcases List.mem_cons.mp hy with rfl | hy
    · exact (le_foldl_max y xs).1
    · exact (le_foldl_max x xs).2 y hy

theorem qMin_mem {l : List ℚ} (h : l ≠ []) : qMin l ∈ l := by
  cases l with
  | nil => exact absurd rfl h
  | cons x xs =>
    show xs.foldl min x ∈ x :: xs
    rcases foldl_min_mem x xs with hm | hm
    · rw [hm]; exact List.mem_cons_self _ _
    · exact List.mem_cons.mpr (Or.inr hm)

theorem qMax_mem {l : List ℚ} (h : l ≠ []) : qMax l ∈ l := by
  cases l with
  | nil => exact absurd rfl h
  | cons x xs =>
    show xs.foldl max x ∈ x :: xs
    rcases foldl_max_mem x xs with hm | hm
    · rw [hm]; exact List.mem_cons_self _ _
    · exact List.mem_cons.mpr (Or.inr hm)

/-! ## Structure of the pedal-down runs -/

theorem groupRunsGo_join (thr : ℤ) (rest : List SusRow) :
    ∀ acc : List SusRow, (groupRunsGo thr acc rest).flatten = acc.reverse ++ rest := by
  induction rest with
  | nil => intro acc; simp [groupRunsGo]
  | cons x xs ih =>
    intro acc
    cases acc with
    | nil => simp [groupRunsGo, ih]
    | cons a as =>
      by_cases h : (isDown thr x == isDown thr a) = true
      · simp only [groupRunsGo]
        rw [if_pos h, ih]
        simp
      · simp only [groupRunsGo]
        rw [if_neg h]
        simp [ih]

theorem groupRunsGo_ne_nil (thr : ℤ) (rest : List SusRow) :
    ∀ acc : List SusRow, acc ≠ [] → ∀ g ∈ groupRunsGo thr acc rest, g ≠ [] := by
  induction rest with
  | nil =>
    intro acc hacc g hg
    simp only [groupRunsGo, List.mem_singleton] at hg
    subst hg
    simpa using hacc
  | cons x xs ih =>
    intro acc hacc g hg
    cases acc with
    | nil => exact absurd rfl hacc
    | cons a as =>
      simp only [groupRunsGo] at hg
      by_cases h : (isDown thr x == isDown thr a) = true
      · rw [if_pos h] at hg
        exact ih (x :: a :: as) (by simp) g hg
      · rw [if_neg h] at hg
        rcases List.mem_cons.mp hg with rfl | hg
        · simp
        · exact ih [x] (by simp) g hg

theorem groupRuns_flatten (thr : ℤ) (l : List SusRow) : (groupRuns thr l).flatten = l := by
  cases l with
  | nil => rfl
  | cons r rs => simpa using groupRunsGo_join thr rs [r]

theorem groupRuns_ne_nil (thr : ℤ) (l : List SusRow) : ∀ g ∈ groupRuns thr l, g ≠ [] := by
  cases l with
  | nil => intro g hg; cases hg
  | cons r rs => exact groupRunsGo_ne_nil thr rs [r] (by simp)

theorem downGroups_ne_nil (thr : ℤ) (l : List SusRow) : ∀ g ∈ downGroups thr l, g ≠ [] :=
  fun g hg => groupRuns_ne_nil thr l g (List.mem_of_mem_filter hg)

/-- Cross-group ordering: when the sustain rows are sorted by time, every
sample of an earlier pedal-down run is at or before every sample of a later
one. -/
theorem downGroups_pairwise (thr : ℤ) (l : List SusRow)
    (hl : l.Pairwise fun a b => a.time ≤ b.time) :
    (downGroups thr l).Pairwise fun g h => ∀ a ∈ g, ∀ b ∈ h, a.time ≤ b.time := by
  have hjoin : ((groupRuns thr l).flatten).Pairwise fun a b => a.time ≤ b.time := by
    rw [groupRuns_flatten]; exact hl
  have hcross := (List.pairwise_flatten.mp hjoin).2
  exact hcross.sublist (List.filter_sublist _)

/-- The run intervals are ordered and each is nonempty (`pd ≤ pu`). -/
theorem runsOf_wf (thr : ℤ) (l : List SusRow)
    (hl : l.Pairwise fun a b => a.time ≤ b.time) :
    (∀ p ∈ runsOf thr l, p.1 ≤ p.2) ∧
      (runsOf thr l).Pairwise fun p q => p.2 ≤ q.1 := by
  constructor
  · intro p hp
    simp only [runsOf] at hp
    rcases List.mem_map.mp hp with ⟨g, hg, rfl⟩
    have hne : g ≠ [] := downGroups_ne_nil thr l g hg
    have hne' : g.map SusRow.time ≠ [] := by simpa using hne
    exact qMin_le_of_mem (qMax_mem hne')
  · simp only [runsOf]
    rw [List.pairwise_map]
    refine List.Pairwise.imp_of_mem ?_ (downGroups_pairwise thr l hl)
    intro g h hg hh hcross
    have hgne : g.map SusRow.time ≠ [] := by simpa using downGroups_ne_nil thr l g hg
    have hhne : h.map SusRow.time ≠ [] := by simpa using downGroups_ne_nil thr l h hh
    rcases List.mem_map.mp (qMax_mem hgne) with ⟨a, ha, hqa⟩
    rcases List.mem_map.mp (qMin_mem hhne) with ⟨b, hb, hqb⟩
    rw [← hqa, ← hqb]
    exact hcross a ha b hb

/-! ## Idempotence of the per-note step -/

theorem sustainStep_some (pd pu e s : ℚ) :
    sustainStep (some s) pd pu e = if pd ≤ e ∧ e < pu then min s pu else e := rfl

theorem sustainStep_none (pd pu e : ℚ) :
    sustainStep none pd pu e = if pd ≤ e ∧ e < pu then max e pu else e := rfl

theorem sustainStep_idem (ns : Option ℚ) (pd pu e : ℚ) :
    sustainStep ns pd pu (sustainStep ns pd pu e) = sustainStep ns pd pu e := by
  cases ns with
  | some s =>
    rw [sustainStep_some, sustainStep_some]
    by_cases h : pd ≤ e ∧ e < pu
    · rw [if_pos h]
      by_cases h2 : pd ≤ min s pu ∧ min s pu < pu
      · rw [if_pos h2]
      · rw [if_neg h2]
    · rw [if_neg h, if_neg h]
  | none =>
    rw [sustainStep_none, sustainStep_none]
    by_cases h : pd ≤ e ∧ e < pu
    · rw [if_pos h]
      have hout : ¬(pd ≤ max e pu ∧ max e pu < pu) := by
        rintro ⟨-, hlt⟩
        exact absurd (le_max_right e pu) (not_le.mpr hlt)
      rw [if_neg hout]
    · rw [if_neg h, if_neg h]

/-- An earlier run cannot move the output of a later run: runs are
processed in time order, so once a later run has rewritten a note's end,
every earlier run's step leaves it fixed (provided it fixed the input). -/
theorem sustainStep_preserve (ns : Option ℚ) (pd1 pu1 pd2 pu2 e : ℚ)
    (horder : pu1 ≤ pd2) (hrun : pd2 ≤ pu2)
    (hfix : sustainStep ns pd1 pu1 e = e) :
    sustainStep ns pd1 pu1 (sustainStep ns pd2 pu2 e) = sustainStep ns pd2 pu2 e := by
  cases ns with
  | some s =>
    rw [sustainStep_some, sustainStep_some]
    by_cases h : pd2 ≤ e ∧ e < pu2
    · rw [if_pos h]
      by_cases hin : pd1 ≤ min s pu2 ∧ min s pu2 < pu1
      · -- the earlier window can only fire on this value when it is `s`,
        -- and then it maps `s` to itself
        rw [if_pos hin]
        have hlt : min s pu2 < pu2 := lt_of_lt_of_le hin.2 (le_trans horder hrun)
        have hs : min s pu2 = s := by
          rcases min_cases s pu2 with ⟨heq, -⟩ | ⟨heq, -⟩
          · exact heq
          · exact absurd (heq ▸ hlt) (lt_irrefl _)
        have h1 : s < pu1 := hs ▸ hin.2
        exact (min_eq_left h1.le).trans hs.symm
      · rw [if_neg hin]
    · rw [if_neg h]
      rw [sustainStep_some] at hfix
      exact hfix
  | none =>
    rw [sustainStep_none, sustainStep_none]
    by_cases h : pd2 ≤ e ∧ e < pu2
    · rw [if_pos h]
      have hout : ¬(pd1 ≤ max e pu2 ∧ max e pu2 < pu1) := by
        rintro ⟨-, hlt⟩
        exact absurd (le_trans horder (le_trans hrun (le_max_right e pu2)))
          (not_le.mpr hlt)
      rw [if_neg hout]
    · rw [if_neg h]
      rw [sustainStep_none] at hfix
      exact hfix

/-- After folding the step over time-ordered runs, the result is a fixed
point of every one of the steps. -/
theorem foldl_sustainStep_fix (ns : Option ℚ) :
    ∀ runs : List (ℚ × ℚ), (∀ p ∈ runs, p.1 ≤ p.2) →
      (runs.Pairwise fun p q => p.2 ≤ q.1) →
      ∀ e, ∀ r ∈ runs,
        sustainStep ns r.1 r.2 (runs.foldl (fun e p => sustainStep ns p.1 p.2 e) e)
          = runs.foldl (fun e p => sustainStep ns p.1 p.2 e) e := by
  intro runs
  induction runs using List.reverseRecOn with
  | nil => intro _ _ e r hr; cases hr
  | append_singleton l g ih =>
    intro hrun horder e r hr
    rw [List.foldl_append, List.foldl_cons, List.foldl_nil]
    rcases List.mem_append.mp hr with hrl | hrg
    · have hfix := ih (fun p hp => hrun p (List.mem_append_left _ hp))
        (horder.sublist (List.sublist_append_left _ _)) e r hrl
      have hord : r.2 ≤ g.1 :=
        (List.pairwise_append.mp horder).2.2 r hrl g (List.mem_singleton_self g)
      exact sustainStep_preserve ns r.1 r.2 g.1 g.2 _ hord
        (hrun g (List.mem_append_right _ (List.mem_singleton_self g))) hfix
    · rw [List.mem_singleton.mp hrg]
      exact sustainStep_idem ns g.1 g.2 _

theorem foldl_eq_of_fixpoints (ns : Option ℚ) :
    ∀ (runs : List (ℚ × ℚ)) (E : ℚ),
      (∀ r ∈ runs, sustainStep ns r.1 r.2 E = E) →
      runs.foldl (fun e p => sustainStep ns p.1 p.2 e) E = E := by
  intro runs
  induction runs with
  | nil => intro E _; rfl
  | cons p ps ih =>
    intro E hE
    rw [List.foldl_cons, hE p (List.mem_cons_self _ _)]
    exact ih E fun r hr => hE r (List.mem_cons_of_mem _ hr)

/-- Per-note idempotence of the sustain fold over time-ordered runs. -/
theorem foldl_sustainStep_idem (ns : Option ℚ) (runs : List (ℚ × ℚ))
    (hrun : ∀ p ∈ runs, p.1 ≤ p.2)
    (horder : runs.Pairwise fun p q => p.2 ≤ q.1) (e : ℚ) :
    runs.foldl (fun e p => sustainStep ns p.1 p.2 e)
        (runs.foldl (fun e p => sustainStep ns p.1 p.2 e) e)
      = runs.foldl (fun e p => sustainStep ns p.1 p.2 e) e :=
  foldl_eq_of_fixpoints ns runs _
    (fun r hr => foldl_sustainStep_fix ns runs hrun horder e r hr)

/-- Idempotence at the level of run folds over the note table. -/
theorem foldRuns_idem (runs : List (ℚ × ℚ)) (df : List NoteRow)
    (hrun : ∀ p ∈ runs, p.1 ≤ p.2)
    (horder : runs.Pairwise fun p q => p.2 ≤ q.1) :
    runs.foldl (fun d p => sustainNotes d p.1 p.2)
        (runs.foldl (fun d p => sustainNotes d p.1 p.2) df)
      = runs.foldl (fun d p => sustainNotes d p.1 p.2) df := by
  rw [foldRuns_eq_map runs df]
  rw [foldRuns_eq_map]
  rw [List.map_map]
  rw [List.map_inj_left]
  intro r hr
  simp only [Function.comp_apply]
  rw [nextStart_map_end]
  show ({ r with end_ := _ } : NoteRow) = { r with end_ := _ }
  congr 1
  exact foldl_sustainStep_idem _ runs hrun horder r.end_

/-! ## Claim C1 -/

/-- Claim C1, as stated, is false: with notes `(60, 0, 1)`, `(60, 2, 3)` and
sustain samples `value 100` at `0.5`, `value 0` at `2.5` (threshold 64),
`apply_sustain` leaves the first note's end at `1`, not `2`. -/
theorem C1_counterexample :
    (applySustain [⟨60, 0, 1⟩, ⟨60, 2, 3⟩]
        [⟨1/2, 100⟩, ⟨5/2, 0⟩] 64).map NoteRow.end_ = [1, 3] ∧ (1 : ℚ) ≠ 2 := by
  constructor
  · norm_num [applySustain, downGroups, groupRuns, groupRunsGo, sustainNotes,
      nextStart, isDown, qMin, qMax]
  · norm_num

/-- Claim C1 (amended): in the two-note scenario the only pedal-down run is
the single sample at `0.5` (the `value 0` sample at `2.5` is an up sample),
so `pedal_down = pedal_up = 0.5`, the selection window `[0.5, 0.5)` contains
no note end, and `apply_sustain` leaves both ends unchanged (`1` and `3`). -/
theorem C1_amended_sustain_noop :
    downGroups 64 [⟨1/2, 100⟩, ⟨5/2, 0⟩] = [[⟨1/2, 100⟩]] ∧
    applySustain [⟨60, 0, 1⟩, ⟨60, 2, 3⟩] [⟨1/2, 100⟩, ⟨5/2, 0⟩] 64
      = [⟨60, 0, 1⟩, ⟨60, 2, 3⟩] := by
  constructor
  · norm_num [downGroups, groupRuns, groupRunsGo, isDown]
  · norm_num [applySustain, downGroups, groupRuns, groupRunsGo, sustainNotes,
      nextStart, isDown, qMin, qMax]

/-! ## Claim C5 -/

/-- Claim C5, as stated (for every sustain table), is false: with notes
`(60, 0, 3)`, `(60, 20, 21)` and pedal rows whose times are not sorted —
down samples at `6, 10`, an up sample at `999`, then down samples at `0, 8`
— the first application moves note 1's end to `8`, which the (earlier in row
order, later in time) run `[6, 10]` then moves to `10` on the second
application. -/
theorem C5_counterexample :
    (applySustain (applySustain [⟨60, 0, 3⟩, ⟨60, 20, 21⟩]
          [⟨6, 100⟩, ⟨10, 100⟩, ⟨999, 0⟩, ⟨0, 100⟩, ⟨8, 100⟩] 64)
        [⟨6, 100⟩, ⟨10, 100⟩, ⟨999, 0⟩, ⟨0, 100⟩, ⟨8, 100⟩] 64).map NoteRow.end_
        = [10, 21] ∧
      (applySustain [⟨60, 0, 3⟩, ⟨60, 20, 21⟩]
          [⟨6, 100⟩, ⟨10, 100⟩, ⟨999, 0⟩, ⟨0, 100⟩, ⟨8, 100⟩] 64).map NoteRow.end_
        = [8, 21] ∧
      (10 : ℚ) ≠ 8 := by
  refine ⟨?_, ?_, by norm_num⟩
  · norm_num [applySustain, downGroups, groupRuns, groupRunsGo, sustainNotes,
      nextStart, isDown, qMin, qMax]
  · norm_num [applySustain, downGroups, groupRuns, groupRunsGo, sustainNotes,
      nextStart, isDown, qMin, qMax]

/-- Claim C5 (amended): for every note table and every sustain-pedal table
whose rows are sorted by time (as decoded pedal streams are), applying
`apply_sustain` twice with the same pedal data and threshold gives the same
note table as applying it once: the pedal-down runs are then in time order
and each note's end reaches a fixed point of every run's step after one
pass. -/
theorem C5_amended_idempotent_on_sorted_pedal (df : List NoteRow) (sus : List SusRow)
    (thr : ℤ) (hsorted : sus.Pairwise fun a b => a.time ≤ b.time) :
    applySustain (applySustain df sus thr) sus thr = applySustain df sus thr := by
  obtain ⟨hrun, horder⟩ := runsOf_wf thr sus hsorted
  rw [applySustain_eq_runs df sus thr, applySustain_eq_runs]
  exact foldRuns_idem (runsOf thr sus) df hrun horder

/-- Witness for C5 (amended) at a concrete sorted pedal table. -/
theorem C5_amended_idempotent_witness :
    List.Pairwise (fun a b : SusRow => a.time ≤ b.time) [⟨0, 100⟩, ⟨1, 100⟩] ∧
      applySustain (applySustain [⟨60, 0, 1⟩] [⟨0, 100⟩, ⟨1, 100⟩] 64)
          [⟨0, 100⟩, ⟨1, 100⟩] 64
        = applySustain [⟨60, 0, 1⟩] [⟨0, 100⟩, ⟨1, 100⟩] 64 :=
  ⟨by norm_num [List.pairwise_cons],
    C5_amended_idempotent_on_sorted_pedal [⟨60, 0, 1⟩] [⟨0, 100⟩, ⟨1, 100⟩] 64
      (by norm_num [List.pairwise_cons])⟩

/-! ## Claim C10 -/

/-- Claim C10, as stated, is false: after `apply_sustain` on the notes
`(60, 0, 1)`, `(60, 2, 3)` with down samples at `0.5` and `1.5`, the
caller's note table no longer holds its original end values (note 1's end
was extended in place to `min(2, 1.5) = 1.5`), and the caller's sustain
table no longer has exactly its original columns. -/
theorem C10_counterexample :
    (applySustainCall [⟨60, 0, 1⟩, ⟨60, 2, 3⟩] [⟨1/2, 100⟩, ⟨3/2, 100⟩] 64).callerNotes
        ≠ [⟨60, 0, 1⟩, ⟨60, 2, 3⟩] ∧
      (applySustainCall [⟨60, 0, 1⟩, ⟨60, 2, 3⟩] [⟨1/2, 100⟩, ⟨3/2, 100⟩] 64).callerSustainCols
        ≠ ["time", "value"] := by
  constructor
  · intro h
    have h2 := congrArg (fun l => (l.map NoteRow.end_).head?) h
    norm_num [applySustainCall, applySustain, downGroups, groupRuns, groupRunsGo,
      sustainNotes, nextStart, isDown, qMin, qMax] at h2
  · intro h
    have h2 := congrArg List.length h
    norm_num [applySustainCall] at h2

/-- Projecting the annotated sustain rows back to `(time, value)` recovers
the original rows: the mutation only adds columns. -/
theorem annotateGo_proj (thr : ℤ) :
    ∀ (sus : List SusRow) (prev : Option Bool) (idx : ℕ),
      (annotateGo thr prev idx sus).map (fun c => (c.1, c.2.1))
        = sus.map fun r => (r.time, r.value) := by
  intro sus
  induction sus with
  | nil => intro prev idx; rfl
  | cons r rs ih =>
    intro prev idx
    simp only [annotateGo, List.map_cons, ih]

/-- Claim C10 (amended): `apply_sustain` returns the caller's note-table
object itself, mutated in place — its ends are the sustain-extended ends
(and `duration` is recomputed from them) — and the caller's sustain table
keeps all its original `time`/`value` cells but gains the `is_down` and
`down_index` columns. -/
theorem C10_amended_in_place_mutation (df : List NoteRow) (sus : List SusRow) (thr : ℤ) :
    (applySustainCall df sus thr).retNotes = (applySustainCall df sus thr).callerNotes ∧
      (applySustainCall df sus thr).callerNotes = applySustain df sus thr ∧
      ((applySustainCall df sus thr).callerSustainRows.map fun c => (c.1, c.2.1))
        = (sus.map fun r => (r.time, r.value)) ∧
      (applySustainCall df sus thr).callerSustainCols
        = ["time", "value", "is_down", "down_index"] :=
  ⟨rfl, rfl, annotateGo_proj thr sus none 0, rfl⟩

/-! ## Claim C3 -/

theorem le_foldl_max_nat (x : ℕ) (xs : List ℕ) :
    x ≤ xs.foldl max x ∧ ∀ y ∈ xs, y ≤ xs.foldl max x := by
  induction xs generalizing x with
  | nil => simp
  | cons a as ih =>
    obtain ⟨h1, h2⟩ := ih (max x a)
    refine ⟨le_trans (le_max_left _ _) h1, ?_⟩
    intro y hy
    rcases List.mem_cons.mp hy with rfl | hy
    · exact le_trans (le_max_right _ _) h1
    · exact h2 y hy

theorem le_natMax_of_mem {l : List ℕ} {x : ℕ} (h : x ∈ l) : x ≤ natMax l :=
  (le_foldl_max_nat 0 l).2 x h

/-- Claim C3: at a note-off event at tick `T` for a key with open note-on
entries, every open entry whose start tick differs from `T` is closed into
a `Note` with tick-to-time-converted start and end, and the entries whose
start tick equals `T` stay open exactly when at least one entry was closed
at this event; otherwise the key is cleared. -/
theorem C3_noteoff_same_tick_policy (ttt : ℕ → ℚ) (pitch T : ℕ)
    (opens : List (ℕ × ℕ)) :
    ((handleNoteOff ttt pitch opens T).1
        = (opens.filter fun p => decide (p.1 ≠ T)).map fun p =>
            ({ velocity := p.2, pitch := pitch, start := ttt p.1,
               end_ := ttt T } : DecNote)) ∧
      (∀ p ∈ opens, p.1 = T →
        ((∃ kept, (handleNoteOff ttt pitch opens T).2 = some kept ∧ p ∈ kept)
          ↔ (handleNoteOff ttt pitch opens T).1 ≠ [])) ∧
      ((handleNoteOff ttt pitch opens T).1 = []
          ∨ (opens.filter fun p => decide (p.1 = T)) = [] →
        (handleNoteOff ttt pitch opens T).2 = none) := by
  simp only [handleNoteOff]
  by_cases hc : 0 < (opens.filter fun p => decide (p.1 ≠ T)).length ∧
      0 < (opens.filter fun p => decide (p.1 = T)).length
  · rw [if_pos hc]
    refine ⟨rfl, ?_, ?_⟩
    · intro p hp hpT
      constructor
      · intro _
        intro hnil
        have := List.map_eq_nil_iff.mp hnil
        rw [this] at hc
        exact absurd hc.1 (by simp)
      · intro _
        refine ⟨_, rfl, ?_⟩
        exact List.mem_filter.mpr ⟨hp, by simp [hpT]⟩
    · rintro (hnil | hnil)
      · have := List.map_eq_nil_iff.mp hnil
        rw [this] at hc
        exact absurd hc.1 (by simp)
      · rw [hnil] at hc
        exact absurd hc.2 (by simp)
  · rw [if_neg hc]
    refine ⟨rfl, ?_, fun _ => rfl⟩
    intro p hp hpT
    constructor
    · rintro ⟨kept, hkept, -⟩
      cases hkept
    · intro hclosed
      exfalso
      apply hc
      constructor
      · have hlen : (opens.filter fun p => decide (p.1 ≠ T)).length
            = ((opens.filter fun p => decide (p.1 ≠ T)).map fun p =>
                ({ velocity := p.2, pitch := pitch, start := ttt p.1,
                   end_ := ttt T } : DecNote)).length := (List.length_map _ _).symm
        rw [hlen]
        exact List.length_pos.mpr hclosed
      · have hpmem : p ∈ opens.filter fun p => decide (p.1 = T) :=
          List.mem_filter.mpr ⟨hp, by simp [hpT]⟩
        exact List.length_pos.mpr (List.ne_nil_of_mem hpmem)

/-- Witness for C3 at a concrete input: open entries `(0, 80)` and
`(5, 90)`, note-off at tick 5: the first entry is closed, the second stays
open. -/
theorem C3_noteoff_witness :
    ((5, 90) : ℕ × ℕ) ∈ [((0 : ℕ), (80 : ℕ)), (5, 90)] ∧
      ((5, 90) : ℕ × ℕ).1 = 5 ∧
      ∃ kept,
        (handleNoteOff (fun t => (t : ℚ)) 60 [(0, 80), (5, 90)] 5).2 = some kept ∧
          ((5, 90) : ℕ × ℕ) ∈ kept :=
  ⟨by simp, rfl,
    ((C3_noteoff_same_tick_policy (fun t => (t : ℚ)) 60 5 [(0, 80), (5, 90)]).2.1
        (5, 90) (by simp) rfl).mpr
      (by simp [handleNoteOff])⟩

/-! ## Claim C9 -/

/-- Claim C9: every tick at or beyond the corruption ceiling `1e10` is
rejected before the tick-to-time table is allocated or regrown.  Decoding a
file one of whose event ticks is at or beyond the ceiling (so
`get_max_tick`, the maximum plus one, strictly exceeds it) aborts with the
"likely corrupt" `ValueError` before the table is built, and `tick_to_time`
on a tick `≥ 1e10` raises `IndexError` before the table-extension check. -/
theorem C9_tick_ceiling_rejection :
    (∀ (tracks : List (List ℕ)) (scales : List (ℕ × ℚ)) (t : List ℕ) (e : ℕ),
        t ∈ tracks → e ∈ t → maxTickCeiling ≤ e →
        processMidiGuard tracks scales
          = Except.error "MIDI file has a largest tick, it is likely corrupt") ∧
      ∀ (tbl : List ℚ) (scales : List (ℕ × ℚ)) (tick : ℕ),
        maxTickCeiling ≤ tick →
        tickToTime tbl scales tick = Except.error "Supplied tick is too large." := by
  constructor
  · intro tracks scales t e ht he hce
    have h1 : e ≤ natMax t := le_natMax_of_mem he
    have h2 : natMax t ≤ natMax (tracks.map natMax) :=
      le_natMax_of_mem (List.mem_map.mpr ⟨t, ht, rfl⟩)
    have : maxTickCeiling < getMaxTick tracks := by
      unfold getMaxTick
      omega
    simp only [processMidiGuard]
    rw [if_pos this]
  · intro tbl scales tick hc
    simp only [tickToTime]
    rw [if_pos hc]

/-- Witness for C9 at tick exactly `10^10`. -/
theorem C9_tick_ceiling_witness :
    [maxTickCeiling] ∈ [[maxTickCeiling]] ∧
      maxTickCeiling ∈ [maxTickCeiling] ∧
      maxTickCeiling ≤ maxTickCeiling ∧
      processMidiGuard [[maxTickCeiling]] [(0, 1)]
        = Except.error "MIDI file has a largest tick, it is likely corrupt" ∧
      tickToTime [] [(0, 1)] maxTickCeiling
        = Except.error "Supplied tick is too large." :=
  ⟨by simp, by simp, le_refl _,
    (C9_tick_ceiling_rejection).1 [[maxTickCeiling]] [(0, 1)] [maxTickCeiling]
      maxTickCeiling (by simp) (by simp) (le_refl _),
    (C9_tick_ceiling_rejection).2 [] [(0, 1)] maxTickCeiling (le_refl _)⟩

/-! ## Claim C2 -/

/-- With strictly increasing entry ticks, filtering the conductor track's
tempo events at one entry's tick singles out exactly that entry's event. -/
theorem writeTempoEvents_filter_tick (res : ℕ) :
    ∀ scales : List (ℕ × ℚ),
      List.Pairwise (fun a b : ℕ × ℚ => a.1 < b.1) scales →
      ∀ p ∈ scales,
        (writeTempoEvents scales res).filter (fun ev => decide (ev.1 = p.1))
          = [(p.1, pyInt (60000000 / (60 / (p.2 * res))))] := by
  intro scales
  induction scales with
  | nil => intro _ p hp; cases hp
  | cons q rest ih =>
    intro hstrict p hp
    have hq : ∀ r ∈ rest, q.1 < r.1 := (List.pairwise_cons.mp hstrict).1
    have hrest := (List.pairwise_cons.mp hstrict).2
    rcases List.mem_cons.mp hp with rfl | hp
    · simp only [writeTempoEvents, List.map_cons, List.filter_cons]
      rw [if_pos (by simp)]
      have hnil : (rest.map fun p' =>
          ((p'.1, pyInt (60000000 / (60 / (p'.2 * res)))) : ℕ × ℤ)).filter
            (fun ev => decide (ev.1 = p.1)) = [] := by
        rw [List.filter_eq_nil_iff]
        intro ev hev
        rcases List.mem_map.mp hev with ⟨r, hr, rfl⟩
        simp only [decide_eq_true_eq]
        exact Nat.ne_of_gt (hq r hr)
      rw [hnil]
    · simp only [writeTempoEvents, List.map_cons, List.filter_cons]
      rw [if_neg (by
        simp only [decide_eq_true_eq]
        have : q.1 < p.1 := hq p hp
        omega)]
      exact ih hrest p hp

/-- Claim C2, as stated, is false: for the default tick scale
`1/440` at resolution 220 the encoder emits tempo `500000`
(µs per quarter), while the spec's formula `60e6 / (scale * resolution)`
evaluates to `120000000`. -/
theorem C2_counterexample :
    writeTempoEvents [(0, 1/440)] 220 = [(0, 500000)] ∧
      ((500000 : ℚ) ≠ 60000000 / (1/440 * 220)) := by
  constructor
  · simp only [writeTempoEvents, List.map_cons, List.map_nil, pyInt]
    norm_num
  · norm_num

/-- Claim C2 (amended): for every tick-scale entry (with the strictly
increasing entry ticks of a decoded File), the conductor track contains
exactly one tempo meta-event at that tick, whose value is
`int(6e7 / (60 / (seconds_per_tick * resolution)))` — and this is the exact
inverse of the decoder's formula
`seconds_per_tick = 60 / ((6e7 / tempo) * resolution)`. -/
theorem C2_amended_tempo_events (scales : List (ℕ × ℚ)) (res : ℕ)
    (hstrict : List.Pairwise (fun a b : ℕ × ℚ => a.1 < b.1) scales) :
    (∀ p ∈ scales,
        (writeTempoEvents scales res).filter (fun ev => decide (ev.1 = p.1))
          = [(p.1, pyInt (60000000 / (60 / (p.2 * res))))]) ∧
      ∀ tempo : ℕ, 0 < tempo → 0 < res →
        pyInt (60000000 / (60 / (tickScaleOf tempo res * res))) = tempo := by
  refine ⟨writeTempoEvents_filter_tick res scales hstrict, ?_⟩
  intro tempo htempo hres
  have ht : ((tempo : ℚ)) ≠ 0 := Nat.cast_ne_zero.mpr (Nat.pos_iff_ne_zero.mp htempo)
  have hr : ((res : ℚ)) ≠ 0 := Nat.cast_ne_zero.mpr (Nat.pos_iff_ne_zero.mp hres)
  have hval : (60000000 / (60 / (tickScaleOf tempo res * res)) : ℚ) = tempo := by
    rw [tickScaleOf]
    field_simp
    ring
  rw [hval]
  simp [pyInt, Int.floor_natCast]

/-- Witness for C2 (amended) on the two-entry scale list
`[(0, 1/440), (480, 1/220)]` at resolution 220. -/
theorem C2_amended_tempo_events_witness :
    List.Pairwise (fun a b : ℕ × ℚ => a.1 < b.1) [(0, 1/440), (480, 1/220)] ∧
      (writeTempoEvents [(0, 1/440), (480, 1/220)] 220).filter
          (fun ev => decide (ev.1 = 0)) = [(0, 500000)] ∧
      pyInt (60000000 / (60 / (tickScaleOf 500000 220 * 220))) = 500000 := by
  have hp : List.Pairwise (fun a b : ℕ × ℚ => a.1 < b.1) [(0, 1/440), (480, 1/220)] := by
    simp [List.pairwise_cons]
  refine ⟨hp, ?_, ?_⟩
  · have h := (C2_amended_tempo_events [(0, 1/440), (480, 1/220)] 220 hp).1
      (0, 1/440) (by simp)
    rw [show (fun ev : ℕ × ℤ => decide (ev.1 = 0))
          = (fun ev : ℕ × ℤ => decide (ev.1 = ((0 : ℕ), (1/440 : ℚ)).1)) from rfl, h]
    norm_num [pyInt]
  · exact (C2_amended_tempo_events [(0, 1/440), (480, 1/220)] 220 hp).2 500000
      (by norm_num) (by norm_num)

/-! ## Claim C7 -/

theorem foldl_max_le {b : ℚ} : ∀ {xs : List ℚ} {x : ℚ},
    x ≤ b → (∀ y ∈ xs, y ≤ b) → xs.foldl max x ≤ b := by
  intro xs
  induction xs with
  | nil => intro x hx _; exact hx
  | cons a as ih =>
    intro x hx h
    exact ih (max_le hx (h a (List.mem_cons_self _ _)))
      (fun y hy => h y (List.mem_cons_of_mem _ hy))

theorem qMax_le {l : List ℚ} {b : ℚ} (hne : l ≠ []) (h : ∀ y ∈ l, y ≤ b) :
    qMax l ≤ b := by
  cases l with
  | nil => exact absurd rfl hne
  | cons x xs =>
    exact foldl_max_le (h x (List.mem_cons_self _ _))
      (fun y hy => h y (List.mem_cons_of_mem _ hy))

theorem qMax_perm {l l' : List ℚ} (h : l.Perm l') (hne : l ≠ []) :
    qMax l = qMax l' := by
  have hne' : l' ≠ [] := by
    intro hnil
    rw [hnil] at h
    exact hne (List.length_eq_zero.mp (h.length_eq.trans rfl))
  exact le_antisymm
    (qMax_le hne fun y hy => le_qMax_of_mem (h.mem_iff.mp hy))
    (qMax_le hne' fun y hy => le_qMax_of_mem (h.mem_iff.mpr hy))

theorem shiftPFile_ends (f : PFile) (dt : ℚ) :
    (shiftPFile f dt).notes.map (·.end_)
      = (f.notes.map (·.end_)).map (· + dt) := by
  simp only [shiftPFile, List.map_map]
  rfl

/-- The end-time maximum of a list of candidates merged with a copy of a
second candidate list shifted by the first list's own maximum. -/
theorem qMax_zero_shift (u v : List ℚ) :
    qMax (0 :: (u ++ v.map (· + qMax (0 :: u)))) = qMax (0 :: u) + qMax (0 :: v) := by
  have hd1 : (0 : ℚ) ≤ qMax (0 :: u) := le_qMax_of_mem (List.mem_cons_self _ _)
  have hd2 : (0 : ℚ) ≤ qMax (0 :: v) := le_qMax_of_mem (List.mem_cons_self _ _)
  apply le_antisymm
  · apply qMax_le (by simp)
    intro y hy
    rcases List.mem_cons.mp hy with rfl | hy
    · linarith
    rcases List.mem_append.mp hy with h | h
    · have : y ≤ qMax (0 :: u) := le_qMax_of_mem (List.mem_cons_of_mem _ h)
      linarith
    · rcases List.mem_map.mp h with ⟨t, ht, rfl⟩
      have : t ≤ qMax (0 :: v) := le_qMax_of_mem (List.mem_cons_of_mem _ ht)
      linarith
  · have hv := qMax_mem (l := 0 :: v) (by simp)
    rcases List.mem_cons.mp hv with h0 | hv
    · rw [h0, add_zero]
      have hu := qMax_mem (l := 0 :: u) (by simp)
      rcases List.mem_cons.mp hu with h1 | hu
      · rw [h1]
        exact le_qMax_of_mem (List.mem_cons_self _ _)
      · exact le_qMax_of_mem (List.mem_cons_of_mem _ (List.mem_append_left _ hu))
    · apply le_qMax_of_mem
      apply List.mem_cons_of_mem
      apply List.mem_append_right
      rw [add_comm]
      exact List.mem_map.mpr ⟨_, hv, rfl⟩

/-- Claim C7: merging two Files with zero inter-file spacing yields a File
with exactly `N1 + N2` notes whose duration (`get_end_time`) is the sum of
the two input durations.  (Spec-modelled `merge_files`; durations are
end-time maxima, whose candidate lists always include time 0.) -/
theorem C7_merge_two_files (f1 f2 : PFile) :
    (mergeFiles [f1, f2] 0).notes.length = f1.notes.length + f2.notes.length ∧
      getEndTime (mergeFiles [f1, f2] 0) = getEndTime f1 + getEndTime f2 := by
  have hm : mergeFiles [f1, f2] 0
      = { notes := f1.notes ++ (shiftPFile f2 (getEndTime f1 + 0)).notes
        , ccTimes := f1.ccTimes ++ (shiftPFile f2 (getEndTime f1 + 0)).ccTimes } := rfl
  constructor
  · rw [hm]
    simp [shiftPFile]
  · rw [hm]
    show qMax (0 :: ((f1.notes ++ (shiftPFile f2 (getEndTime f1 + 0)).notes).map (·.end_)
        ++ (f1.ccTimes ++ (shiftPFile f2 (getEndTime f1 + 0)).ccTimes))) = _
    rw [List.map_append, shiftPFile_ends]
    simp only [add_zero, shiftPFile]
    -- regroup the four blocks so the two shifted blocks sit together
    have hperm :
        ((f1.notes.map (·.end_)
            ++ (f2.notes.map (·.end_)).map (· + getEndTime f1))
          ++ (f1.ccTimes ++ f2.ccTimes.map (· + getEndTime f1))).Perm
          ((f1.notes.map (·.end_) ++ f1.ccTimes)
            ++ ((f2.notes.map (·.end_)).map (· + getEndTime f1)
              ++ f2.ccTimes.map (· + getEndTime f1))) := by
      rw [List.append_assoc, List.append_assoc]
      exact List.Perm.append_left _ (List.perm_append_comm_assoc _ _ _)
    rw [qMax_perm (hperm.cons 0) (by simp)]
    rw [← List.map_append]
    show qMax (0 :: ((f1.notes.map (·.end_) ++ f1.ccTimes)
        ++ ((f2.notes.map (·.end_) ++ f2.ccTimes).map
            (· + qMax (0 :: (f1.notes.map (·.end_) ++ f1.ccTimes)))))) = _
    rw [qMax_zero_shift]
    rfl

/-! ## Claim C8 -/

/-- With `slice_type="index"` and non-integer bounds, `trim` raises
`ValueError` (the `isinstance` check). -/
theorem trim_index_non_int (df : List NoteRow) (s f : PyNum)
    (h : ∀ a b : ℤ, ¬(s = PyNum.int a ∧ f = PyNum.int b)) :
    trim df s f "index"
      = Except.error (PyErr.valueError
          "Using 'index' slice_type requires 'start' and 'finish' to be integers.") := by
  cases s with
  | int a =>
    cases f with
    | int b => exact absurd ⟨rfl, rfl⟩ (h a b)
    | float q => rfl
  | float q =>
    cases f with
    | int b => rfl
    | float q' => rfl

/-- With `slice_type="index"` and integer bounds out of range, `trim`
raises `IndexError` (the bounds check precedes the order check). -/
theorem trim_index_out_of_range (df : List NoteRow) (a b : ℤ)
    (h : a < 0 ∨ (df.length : ℤ) ≤ b) :
    trim df (PyNum.int a) (PyNum.int b) "index"
      = Except.error (PyErr.indexError "Index out of bounds.") := by
  show (if a < 0 ∨ (df.length : ℤ) ≤ b then
        Except.error (PyErr.indexError "Index out of bounds.")
      else if b < a then
        Except.error (PyErr.valueError "'start' must be smaller than 'finish'.")
      else Except.ok (a, b + 1)) = _
  exact if_pos h

/-- With `slice_type="index"`, in-range integer bounds and
`start > finish`, `trim` raises `ValueError`. -/
theorem trim_index_start_gt (df : List NoteRow) (a b : ℤ)
    (hin : ¬(a < 0 ∨ (df.length : ℤ) ≤ b)) (hgt : b < a) :
    trim df (PyNum.int a) (PyNum.int b) "index"
      = Except.error (PyErr.valueError "'start' must be smaller than 'finish'.") := by
  show (if a < 0 ∨ (df.length : ℤ) ≤ b then
        Except.error (PyErr.indexError "Index out of bounds.")
      else if b < a then
        Except.error (PyErr.valueError "'start' must be smaller than 'finish'.")
      else Except.ok (a, b + 1)) = _
  rw [if_neg hin]
  exact if_pos hgt

/-- With the standard slice type, a range containing no note start yields an
empty selection and `IndexError`. -/
theorem trim_standard_no_rows (df : List NoteRow) (s f : PyNum)
    (h : ∀ r ∈ df, r.start < s.val ∨ f.val < r.start) :
    trim df s f "standard"
      = Except.error (PyErr.indexError "No notes found in the specified range.") := by
  simp only [trim, or_true, if_true]
  have hids : (List.range df.length).filter
      (fun i => (df.map fun r =>
        if ("standard" : String) = "by_end" then
          decide (s.val ≤ r.start) && decide (r.end_ ≤ f.val)
        else
          decide (s.val ≤ r.start) && decide (r.start ≤ f.val)).getD i false) = [] := by
    rw [List.filter_eq_nil_iff]
    intro i hi
    have hilen : i < df.length := List.mem_range.mp hi
    rw [List.getD_eq_getElem?_getD, List.getElem?_map,
      List.getElem?_eq_getElem hilen]
    simp only [Option.map_some', Option.getD_some]
    rw [if_neg (by decide)]
    rcases h df[i] (List.getElem_mem hilen) with hlt | hlt
    · simp [not_le.mpr hlt]
    · simp [not_le.mpr hlt]
  rw [hids]
  rfl

/-- Claim C8, as stated, is false: `trim(start=4, finish=2)` with the
default standard slice type raises `IndexError` ("No notes found in the
specified range"), not a usage/validation error — exactly what the test
suite's `test_trim_with_invalid_range` expects. -/
theorem C8_counterexample :
    trim [⟨60, 0, 1⟩, ⟨62, 1, 2⟩, ⟨64, 2, 3⟩, ⟨65, 3, 4⟩, ⟨67, 4, 11/2⟩]
        (PyNum.float 4) (PyNum.float 2) "standard"
      = Except.error (PyErr.indexError "No notes found in the specified range.")
    ∧ PyErr.indexError "No notes found in the specified range."
        ≠ PyErr.valueError "'start' must be smaller than 'finish'." := by
  constructor
  · apply trim_standard_no_rows
    intro r hr
    fin_cases hr <;> norm_num [PyNum.val]
  · simp

/-- Claim C8 (amended): `trim` raises a usage error for `start > finish`
only in the `"index"` slice type (after the integer and bounds checks);
with the default standard type, `start > finish` selects no notes and
raises an index-range error.  Non-integer bounds with `slice_type="index"`
raise a usage error; integer bounds out of range raise an index-range
error; and a range fully outside the note range raises an index-range
error. -/
theorem C8_amended_trim_errors :
    (∀ (df : List NoteRow) (a b : ℤ),
        ¬(a < 0 ∨ (df.length : ℤ) ≤ b) → b < a →
        trim df (PyNum.int a) (PyNum.int b) "index"
          = Except.error (PyErr.valueError "'start' must be smaller than 'finish'.")) ∧
      (∀ (df : List NoteRow) (s f : PyNum), f.val < s.val →
        trim df s f "standard"
          = Except.error (PyErr.indexError "No notes found in the specified range.")) ∧
      (∀ (df : List NoteRow) (s f : PyNum),
        (∀ a b : ℤ, ¬(s = PyNum.int a ∧ f = PyNum.int b)) →
        trim df s f "index"
          = Except.error (PyErr.valueError
              "Using 'index' slice_type requires 'start' and 'finish' to be integers.")) ∧
      (∀ (df : List NoteRow) (s f : PyNum),
        (∀ r ∈ df, r.start < s.val ∨ f.val < r.start) →
        trim df s f "standard"
          = Except.error (PyErr.indexError "No notes found in the specified range.")) ∧
      (∀ (df : List NoteRow) (a b : ℤ), (a < 0 ∨ (df.length : ℤ) ≤ b) →
        trim df (PyNum.int a) (PyNum.int b) "index"
          = Except.error (PyErr.indexError "Index out of bounds.")) := by
  refine ⟨trim_index_start_gt, ?_, trim_index_non_int, trim_standard_no_rows,
    trim_index_out_of_range⟩
  intro df s f hlt
  apply trim_standard_no_rows
  intro r _
  rcases lt_or_le r.start s.val with h | h
  · exact Or.inl h
  · exact Or.inr (lt_of_lt_of_le hlt h)

/-- Witness for C8 (amended) on a one-note table. -/
theorem C8_amended_trim_errors_witness :
    (¬((5 : ℤ) < 0 ∨ (([(⟨60, 0, 1⟩ : NoteRow)].length : ℤ) ≤ 0))) ∧ ((0 : ℤ) < 5) ∧
      trim [⟨60, 0, 1⟩] (PyNum.int 5) (PyNum.int 0) "index"
        = Except.error (PyErr.valueError "'start' must be smaller than 'finish'.") ∧
      ((PyNum.float 4).val < (PyNum.float 9).val) ∧
      trim [⟨60, 0, 1⟩] (PyNum.float 9) (PyNum.float 4) "standard"
        = Except.error (PyErr.indexError "No notes found in the specified range.") ∧
      trim [⟨60, 0, 1⟩] (PyNum.float 1) (PyNum.int 0) "index"
        = Except.error (PyErr.valueError
            "Using 'index' slice_type requires 'start' and 'finish' to be integers.") ∧
      trim [⟨60, 0, 1⟩] (PyNum.int (-1)) (PyNum.int 0) "index"
        = Except.error (PyErr.indexError "Index out of bounds.") := by
  refine ⟨by norm_num, by norm_num, ?_, by norm_num [PyNum.val], ?_, ?_, ?_⟩
  · exact C8_amended_trim_errors.1 [⟨60, 0, 1⟩] 5 0 (by norm_num) (by norm_num)
  · exact C8_amended_trim_errors.2.1 [⟨60, 0, 1⟩] (PyNum.float 9) (PyNum.float 4)
      (by norm_num [PyNum.val])
  · exact C8_amended_trim_errors.2.2.1 [⟨60, 0, 1⟩] (PyNum.float 1) (PyNum.int 0)
      (by intro a b ⟨h1, h2⟩; cases h1)
  · exact C8_amended_trim_errors.2.2.2.2 [⟨60, 0, 1⟩] (-1) 0 (by norm_num)

/-! ## Claim C6 -/

theorem sorted_range_affine (c σ : ℚ) (hσ : 0 ≤ σ) (len : ℕ) :
    ((List.range len).map fun i : ℕ => c + σ * (i : ℚ)).Sorted (· ≤ ·) := by
  refine List.Pairwise.map _ ?_ (List.pairwise_lt_range len)
  intro i j hij
  have : (i : ℚ) ≤ (j : ℚ) := by exact_mod_cast le_of_lt hij
  nlinarith

theorem mem_range_affine {c σ y : ℚ} {len : ℕ}
    (hy : y ∈ (List.range len).map fun i : ℕ => c + σ * (i : ℚ)) :
    ∃ i : ℕ, i < len ∧ y = c + σ * (i : ℚ) := by
  rcases List.mem_map.mp hy with ⟨i, hi, rfl⟩
  exact ⟨i, List.mem_range.mp hi, rfl⟩

theorem writeSlice_length (tbl : List ℚ) (s len : ℕ) (f : ℕ → ℚ)
    (h : s + len ≤ tbl.length) :
    (writeSlice tbl s len f).length = tbl.length := by
  simp only [writeSlice, List.length_append, List.length_take, List.length_map,
    List.length_range, List.length_drop]
  omega

theorem writeSlice_take_full (tbl : List ℚ) (s len : ℕ) (f : ℕ → ℚ)
    (h : s ≤ tbl.length) :
    (writeSlice tbl s len f).take (s + len)
      = tbl.take s ++ (List.range len).map f := by
  rw [writeSlice]
  refine List.take_left' ?_
  simp only [List.length_append, List.length_take, List.length_map, List.length_range]
  omega

theorem writeSlice_getD (tbl : List ℚ) (s k : ℕ) (f : ℕ → ℚ) (i : ℕ)
    (hs : s ≤ tbl.length) (hik : i < k) :
    (writeSlice tbl s k f).getD (s + i) 0 = f i := by
  rw [writeSlice]
  rw [List.getD_append _ _ _ _ (by
    simp only [List.length_append, List.length_take, List.length_map, List.length_range]
    omega)]
  rw [List.getD_append_right _ _ _ _ (by
    simp only [List.length_take]
    omega)]
  have hlen : (tbl.take s).length = s := by
    simp only [List.length_take]
    omega
  rw [hlen]
  have : s + i - s = i := by omega
  rw [this]
  rw [List.getD_eq_getElem _ _ (by simpa using hik)]
  rw [List.getElem_map]
  congr 1
  exact List.getElem_range _ _

/-- The table-building loop keeps the written prefix sorted: at each entry
the prefix strictly before the current start tick is sorted and bounded by
`last_end`, and each slice write extends it with a nonnegative-slope affine
segment starting at `last_end`. -/
theorem buildTbl_sorted (maxTick : ℕ) :
    ∀ (rest : List (ℕ × ℚ)) (s : ℕ) (σ : ℚ) (tbl : List ℚ) (lastEnd : ℚ),
      0 ≤ σ →
      (∀ p ∈ rest, 0 ≤ p.2) →
      List.Chain' (fun a b : ℕ × ℚ => a.1 ≤ b.1) ((s, σ) :: rest) →
      s ≤ maxTick →
      (∀ p ∈ rest, p.1 ≤ maxTick) →
      tbl.length = maxTick + 1 →
      (tbl.take s).Sorted (· ≤ ·) →
      (∀ x ∈ tbl.take s, x ≤ lastEnd) →
      (buildTbl maxTick ((s, σ) :: rest) tbl lastEnd).Sorted (· ≤ ·) ∧
        (buildTbl maxTick ((s, σ) :: rest) tbl lastEnd).length = maxTick + 1 := by
  intro rest
  induction rest with
  | nil =>
    intro s σ tbl lastEnd hσ _ _ hsm _ hlen hsort hbound
    show ((writeSlice tbl s (maxTick + 1 - s) fun i => lastEnd + σ * i).Sorted (· ≤ ·))
      ∧ (writeSlice tbl s (maxTick + 1 - s) fun i => lastEnd + σ * i).length
          = maxTick + 1
    have hdrop : tbl.drop (s + (maxTick + 1 - s)) = [] :=
      List.drop_eq_nil_of_le (by omega)
    constructor
    · rw [writeSlice, hdrop, List.append_nil, List.Sorted, List.pairwise_append]
      refine ⟨hsort, sorted_range_affine lastEnd σ hσ _, ?_⟩
      intro a ha b hb
      rcases mem_range_affine hb with ⟨i, _, rfl⟩
      have h1 : a ≤ lastEnd := hbound a ha
      have h2 : 0 ≤ σ * (i : ℚ) := mul_nonneg hσ (by positivity)
      linarith
    · rw [writeSlice_length _ _ _ _ (by omega)]
      exact hlen
  | cons q rest ih =>
    rcases q with ⟨e, σ'⟩
    intro s σ tbl lastEnd hσ hpos hchain hsm hmax hlen hsort hbound
    have hse : s ≤ e := (List.chain'_cons.mp hchain).1
    have hchain' : List.Chain' (fun a b : ℕ × ℚ => a.1 ≤ b.1) ((e, σ') :: rest) :=
      (List.chain'_cons.mp hchain).2
    have hem : e ≤ maxTick := hmax (e, σ') (List.mem_cons_self _ _)
    have hlen' : (writeSlice tbl s (e - s + 1) fun i => lastEnd + σ * i).length
        = maxTick + 1 := by
      rw [writeSlice_length _ _ _ _ (by omega)]
      exact hlen
    have htake : (writeSlice tbl s (e - s + 1) fun i => lastEnd + σ * i).take (e + 1)
        = tbl.take s
          ++ (List.range (e - s + 1)).map fun i : ℕ => lastEnd + σ * (i : ℚ) := by
      have := writeSlice_take_full tbl s (e - s + 1)
        (fun i => lastEnd + σ * i) (by omega)
      rwa [show s + (e - s + 1) = e + 1 by omega] at this
    have hgetD : (writeSlice tbl s (e - s + 1) fun i => lastEnd + σ * i).getD e 0
        = lastEnd + σ * ((e - s : ℕ) : ℚ) := by
      have := writeSlice_getD tbl s (e - s + 1)
        (fun i => lastEnd + σ * i) (e - s) (by omega) (by omega)
      rwa [show s + (e - s) = e by omega] at this
    have hlast : lastEnd
        ≤ (writeSlice tbl s (e - s + 1) fun i => lastEnd + σ * i).getD e 0 := by
      rw [hgetD]
      have : 0 ≤ σ * ((e - s : ℕ) : ℚ) := mul_nonneg hσ (by positivity)
      linarith
    have hsort1 : ((writeSlice tbl s (e - s + 1) fun i => lastEnd + σ * i).take
        (e + 1)).Sorted (· ≤ ·) := by
      rw [htake, List.Sorted, List.pairwise_append]
      refine ⟨hsort, sorted_range_affine lastEnd σ hσ _, ?_⟩
      intro a ha b hb
      rcases mem_range_affine hb with ⟨i, _, rfl⟩
      have h1 : a ≤ lastEnd := hbound a ha
      have h2 : 0 ≤ σ * (i : ℚ) := mul_nonneg hσ (by positivity)
      linarith
    have hsub : ((writeSlice tbl s (e - s + 1) fun i => lastEnd + σ * i).take
        e).Sublist ((writeSlice tbl s (e - s + 1) fun i => lastEnd + σ * i).take
        (e + 1)) := by
      rw [show (writeSlice tbl s (e - s + 1) fun i => lastEnd + σ * i).take e
            = ((writeSlice tbl s (e - s + 1) fun i => lastEnd + σ * i).take
                (e + 1)).take e by
          rw [List.take_take]
          congr 1
          omega]
      exact List.take_sublist _ _
    have hsort2 : ((writeSlice tbl s (e - s + 1) fun i => lastEnd + σ * i).take
        e).Sorted (· ≤ ·) := hsort1.sublist hsub
    have hbound2 : ∀ x ∈ (writeSlice tbl s (e - s + 1) fun i => lastEnd + σ * i).take e,
        x ≤ (writeSlice tbl s (e - s + 1) fun i => lastEnd + σ * i).getD e 0 := by
      intro x hx
      have hx' := hsub.subset hx
      rw [htake] at hx'
      rcases List.mem_append.mp hx' with h | h
      · exact le_trans (hbound x h) hlast
      · rcases mem_range_affine h with ⟨i, hi, rfl⟩
        rw [hgetD]
        have hile : (i : ℚ) ≤ ((e - s : ℕ) : ℚ) := by
          exact_mod_cast (by omega : i ≤ e - s)
        have := mul_le_mul_of_nonneg_left hile hσ
        linarith
    show (buildTbl maxTick ((e, σ') :: rest)
        (writeSlice tbl s (e - s + 1) fun i => lastEnd + σ * i)
        ((writeSlice tbl s (e - s + 1) fun i => lastEnd + σ * i).getD e 0)).Sorted
          (· ≤ ·) ∧ _
    exact ih e σ' _ _ (hpos (e, σ') (List.mem_cons_self _ _))
      (fun p hp => hpos p (List.mem_cons_of_mem _ hp)) hchain' hem
      (fun p hp => hmax p (List.mem_cons_of_mem _ hp)) hlen' hsort2 hbound2

/-- `_update_tick_to_time` produces a monotonically non-decreasing table
whenever the scale list starts at tick 0 with nondecreasing ticks and
nonnegative scales. -/
theorem updateTickToTime_sorted (σ0 : ℚ) (rest : List (ℕ × ℚ)) (maxTick0 : ℕ)
    (hpos0 : 0 ≤ σ0) (hpos : ∀ p ∈ rest, 0 ≤ p.2)
    (hchain : List.Chain' (fun a b : ℕ × ℚ => a.1 ≤ b.1) ((0, σ0) :: rest)) :
    (updateTickToTime ((0, σ0) :: rest) maxTick0).Sorted (· ≤ ·) := by
  have hmax : ∀ p ∈ (0, σ0) :: rest,
      p.1 ≤ (if maxTick0 > natMax (((0, σ0) :: rest).map (·.1)) then maxTick0
        else natMax (((0, σ0) :: rest).map (·.1))) := by
    intro p hp
    have h1 : p.1 ≤ natMax (((0, σ0) :: rest).map (·.1)) :=
      le_natMax_of_mem (List.mem_map.mpr ⟨p, hp, rfl⟩)
    split <;> omega
  have := buildTbl_sorted
    (if maxTick0 > natMax (((0, σ0) :: rest).map (·.1)) then maxTick0
      else natMax (((0, σ0) :: rest).map (·.1)))
    rest 0 σ0
    (List.replicate ((if maxTick0 > natMax (((0, σ0) :: rest).map (·.1)) then maxTick0
      else natMax (((0, σ0) :: rest).map (·.1))) + 1) 0)
    0 hpos0 hpos hchain (Nat.zero_le _)
    (fun p hp => hmax p (List.mem_cons_of_mem _ hp))
    (by simp) (by simp) (by simp)
  exact this.1

theorem tickScaleOf_pos {tempo res : ℕ} (ht : 0 < tempo) (hr : 0 < res) :
    0 < tickScaleOf tempo res := by
  have h1 : (0 : ℚ) < tempo := by exact_mod_cast ht
  have h2 : (0 : ℚ) < res := by exact_mod_cast hr
  unfold tickScaleOf
  positivity

/-- Invariants of the `_load_tempo_changes` fold: starting from any
well-formed scale list whose ticks do not exceed the remaining event ticks,
the result still starts at tick 0, has nondecreasing ticks and positive
scales. -/
theorem loadTempo_fold_wf (res : ℕ) (hres : 0 < res) :
    ∀ (events : List (ℕ × ℕ)) (ts : List (ℕ × ℚ)),
      (∀ e ∈ events, 0 < e.2) →
      List.Pairwise (fun a b : ℕ × ℕ => a.1 ≤ b.1) events →
      (∃ σ0 rest, ts = (0, σ0) :: rest) →
      List.Chain' (fun a b : ℕ × ℚ => a.1 ≤ b.1) ts →
      (∀ p ∈ ts, 0 < p.2) →
      (∀ q ∈ ts, ∀ e ∈ events, q.1 ≤ e.1) →
      (∃ σ0 rest, (events.foldl
          (fun ts e =>
            if e.1 = 0 then [(0, tickScaleOf e.2 res)]
            else
              match ts.getLast? with
              | some last =>
                if tickScaleOf e.2 res ≠ last.2 then ts ++ [(e.1, tickScaleOf e.2 res)]
                else ts
              | none => ts)
          ts) = (0, σ0) :: rest) ∧
        List.Chain' (fun a b : ℕ × ℚ => a.1 ≤ b.1) (events.foldl
          (fun ts e =>
            if e.1 = 0 then [(0, tickScaleOf e.2 res)]
            else
              match ts.getLast? with
              | some last =>
                if tickScaleOf e.2 res ≠ last.2 then ts ++ [(e.1, tickScaleOf e.2 res)]
                else ts
              | none => ts)
          ts) ∧
        ∀ p ∈ (events.foldl
          (fun ts e =>
            if e.1 = 0 then [(0, tickScaleOf e.2 res)]
            else
              match ts.getLast? with
              | some last =>
                if tickScaleOf e.2 res ≠ last.2 then ts ++ [(e.1, tickScaleOf e.2 res)]
                else ts
              | none => ts)
          ts), 0 < p.2 := by
  intro events
  induction events with
  | nil =>
    intro ts _ _ hshape hchain hpos _
    exact ⟨hshape, hchain, hpos⟩
  | cons e evs ih =>
    intro ts hev hsorted hshape hchain hpos hbound
    rw [List.foldl_cons]
    have hev' : ∀ e' ∈ evs, 0 < e'.2 :=
      fun e' he' => hev e' (List.mem_cons_of_mem _ he')
    have hsorted' := (List.pairwise_cons.mp hsorted).2
    have hhead : ∀ e' ∈ evs, e.1 ≤ e'.1 := (List.pairwise_cons.mp hsorted).1
    have hepos : 0 < e.2 := hev e (List.mem_cons_self _ _)
    by_cases h0 : e.1 = 0
    · rw [if_pos h0]
      refine ih [(0, tickScaleOf e.2 res)] hev' hsorted' ⟨_, [], rfl⟩ (by simp) ?_ ?_
      · intro p hp
        rw [List.mem_singleton.mp hp]
        exact tickScaleOf_pos hepos hres
      · intro q hq e' _
        rw [List.mem_singleton.mp hq]
        exact Nat.zero_le _
    · rw [if_neg h0]
      rcases hshape with ⟨σ0, rest, rfl⟩
      have hlast : ((0, σ0) :: rest).getLast? = some (((0, σ0) :: rest).getLast
          (List.cons_ne_nil _ _)) := List.getLast?_eq_getLast _ _
      simp only [hlast]
      have hlmem : ((0, σ0) :: rest).getLast (List.cons_ne_nil _ _)
          ∈ (0, σ0) :: rest := List.getLast_mem _
      by_cases hne : tickScaleOf e.2 res
          ≠ (((0, σ0) :: rest).getLast (List.cons_ne_nil _ _)).2
      · rw [if_pos hne]
        refine ih _ hev' hsorted' ⟨σ0, rest ++ [(e.1, tickScaleOf e.2 res)],
          by rw [List.cons_append]⟩ ?_ ?_ ?_
        · rw [List.chain'_append]
          refine ⟨hchain, List.chain'_singleton _, ?_⟩
          intro x hx y hy
          have hxmem : x ∈ (0, σ0) :: rest := List.mem_of_mem_getLast? hx
          have hy' : y = (e.1, tickScaleOf e.2 res) :=
            List.mem_singleton.mp (List.mem_of_mem_head? hy)
          rw [hy']
          exact hbound x hxmem e (List.mem_cons_self _ _)
        · intro p hp
          rcases List.mem_append.mp hp with h | h
          · exact hpos p h
          · rw [List.mem_singleton.mp h]
            exact tickScaleOf_pos hepos hres
        · intro q hq e' he'
          rcases List.mem_append.mp hq with h | h
          · exact hbound q h e' (List.mem_cons_of_mem _ he')
          · rw [List.mem_singleton.mp h]
            exact hhead e' he'
      · rw [if_neg hne]
        exact ih _ hev' hsorted' ⟨σ0, rest, rfl⟩ hchain hpos
          (fun q hq e' he' => hbound q hq e' (List.mem_cons_of_mem _ he'))

/-- Every decoded tick-scale list starts with a tick-0 entry, has
nondecreasing ticks and nonnegative scales. -/
theorem loadTempoChanges_wf (events : List (ℕ × ℕ)) (res : ℕ) (hres : 0 < res)
    (hev : ∀ e ∈ events, 0 < e.2)
    (hsorted : List.Pairwise (fun a b : ℕ × ℕ => a.1 ≤ b.1) events) :
    ∃ σ0 rest, loadTempoChanges events res = (0, σ0) :: rest ∧
      0 ≤ σ0 ∧ (∀ p ∈ rest, 0 ≤ p.2) ∧
      List.Chain' (fun a b : ℕ × ℚ => a.1 ≤ b.1) ((0, σ0) :: rest) := by
  have h := loadTempo_fold_wf res hres events [(0, 60 / (120 * (res : ℚ)))]
    hev hsorted ⟨_, [], rfl⟩ (by simp)
    (by
      intro p hp
      rw [List.mem_singleton.mp hp]
      show (0 : ℚ) < 60 / (120 * res)
      have : (0 : ℚ) < res := by exact_mod_cast hres
      positivity)
    (by
      intro q hq e _
      rw [List.mem_singleton.mp hq]
      exact Nat.zero_le _)
  obtain ⟨⟨σ0, rest, heq⟩, hchain, hpos⟩ := h
  have heq' : loadTempoChanges events res = (0, σ0) :: rest := heq
  refine ⟨σ0, rest, heq', ?_, ?_, ?_⟩
  · have h0 : ((0 : ℕ), σ0) ∈ (0, σ0) :: rest := List.mem_cons_self _ _
    rw [← heq] at h0
    exact le_of_lt (hpos _ h0)
  · intro p hp
    have hp' : p ∈ (0, σ0) :: rest := List.mem_cons_of_mem _ hp
    rw [← heq] at hp'
    exact le_of_lt (hpos p hp')
  · rw [← heq]
    exact hchain

theorem sorted_getD_mono {l : List ℚ} (h : l.Sorted (· ≤ ·)) {i j : ℕ}
    (hij : i < j) (hj : j < l.length) : l.getD i 0 ≤ l.getD j 0 := by
  rw [List.getD_eq_getElem _ _ (lt_trans hij hj), List.getD_eq_getElem _ _ hj]
  exact h.rel_get_of_lt (a := ⟨i, lt_trans hij hj⟩) (b := ⟨j, hj⟩) hij

/-- Claim C6: for every decoded File (tempo events with nondecreasing ticks
and positive tempo values, positive resolution) and all ticks `t1 < t2`
within the tick-to-time table's coverage,
`tick_to_time(t1) ≤ tick_to_time(t2)`: the table built by integrating the
tick-scale entries is monotonically non-decreasing. -/
theorem C6_tick_to_time_monotone (events : List (ℕ × ℕ)) (res maxTick0 : ℕ)
    (hres : 0 < res) (hev : ∀ e ∈ events, 0 < e.2)
    (hsorted : List.Pairwise (fun a b : ℕ × ℕ => a.1 ≤ b.1) events)
    (t1 t2 : ℕ) (h12 : t1 < t2)
    (hcov : t2 < (updateTickToTime (loadTempoChanges events res) maxTick0).length) :
    (updateTickToTime (loadTempoChanges events res) maxTick0).getD t1 0
      ≤ (updateTickToTime (loadTempoChanges events res) maxTick0).getD t2 0 := by
  obtain ⟨σ0, rest, heq, h0, hq, hchain⟩ :=
    loadTempoChanges_wf events res hres hev hsorted
  rw [heq] at hcov ⊢
  exact sorted_getD_mono (updateTickToTime_sorted σ0 rest maxTick0 h0 hq hchain)
    h12 hcov

/-- Witness for C6: the default 120 BPM table at resolution 220 over three
ticks. -/
theorem C6_tick_to_time_monotone_witness :
    (0 : ℕ) < 220 ∧ (0 : ℕ) < 1 ∧
      1 < (updateTickToTime (loadTempoChanges [] 220) 2).length ∧
      (updateTickToTime (loadTempoChanges [] 220) 2).getD 0 0
        ≤ (updateTickToTime (loadTempoChanges [] 220) 2).getD 1 0 := by
  have hcov : 1 < (updateTickToTime (loadTempoChanges [] 220) 2).length := by
    norm_num [updateTickToTime, loadTempoChanges, buildTbl, writeSlice, natMax]
  exact ⟨by norm_num, by norm_num, hcov,
    C6_tick_to_time_monotone [] 220 2 (by norm_num) (by simp) (by simp) 0 1
      (by norm_num) hcov⟩

/-! ## Claim C4 -/

theorem searchsortedLeft_cons (x : ℚ) (xs : List ℚ) (v : ℚ) :
    searchsortedLeft (x :: xs) v
      = if x < v then searchsortedLeft xs v + 1 else 0 := by
  simp only [searchsortedLeft, List.takeWhile_cons]
  by_cases h : x < v
  · simp [h]
  · simp [h]

theorem searchsortedLeft_le_length (l : List ℚ) (v : ℚ) :
    searchsortedLeft l v ≤ l.length :=
  (List.takeWhile_sublist _).length_le

/-- Every table entry strictly before the insertion point is `< v`. -/
theorem searchsortedLeft_lt (v : ℚ) :
    ∀ (l : List ℚ) (j : ℕ), j < searchsortedLeft l v → l.getD j 0 < v := by
  intro l
  induction l with
  | nil => intro j hj; simp [searchsortedLeft] at hj
  | cons x xs ih =>
    intro j hj
    rw [searchsortedLeft_cons] at hj
    by_cases h : x < v
    · rw [if_pos h] at hj
      cases j with
      | zero => simpa using h
      | succ j' =>
        rw [List.getD_cons_succ]
        exact ih j' (by omega)
    · rw [if_neg h] at hj
      omega

/-- The entry at the insertion point (when within the table) is `≥ v`. -/
theorem searchsortedLeft_ge (v : ℚ) :
    ∀ l : List ℚ, searchsortedLeft l v < l.length →
      v ≤ l.getD (searchsortedLeft l v) 0 := by
  intro l
  induction l with
  | nil => intro h; simp [searchsortedLeft] at h
  | cons x xs ih =>
    intro h
    rw [searchsortedLeft_cons] at h ⊢
    simp only [List.length_cons] at h
    by_cases hx : x < v
    · rw [if_pos hx] at h ⊢
      rw [List.getD_cons_succ]
      exact ih (by omega)
    · rw [if_neg hx] at h ⊢
      rw [List.getD_cons_zero]
      exact not_lt.mp hx

/-- Claim C4, as stated, is false at an exact tie: with table `[0, 1, 3]`
and query time `2`, the two adjacent entries (indices 1 and 2) are equally
distant, and `time_to_tick` returns the later index 2, not the earlier 1
(the code only prefers the predecessor when it is strictly closer). -/
theorem C4_counterexample :
    |(2 : ℚ) - [(0 : ℚ), 1, 3].getD 1 0| = |(2 : ℚ) - [(0 : ℚ), 1, 3].getD 2 0| ∧
      timeToTick [(0 : ℚ), 1, 3] [(0, 1)] 2 = 2 ∧ ((2 : ℤ) ≠ 1) := by
  refine ⟨by norm_num, ?_, by norm_num⟩
  have hssl : searchsortedLeft [(0 : ℚ), 1, 3] 2 = 2 := by
    norm_num [searchsortedLeft_cons, searchsortedLeft]
  simp only [timeToTick, hssl]
  norm_num

/-- Claim C4 (amended): within coverage, `time_to_tick` returns one of the
two ticks adjacent to the insertion point, its table time is (weakly)
closest to the query over the whole table, and at an exact distance tie it
returns the later of the two indices (the insertion point itself); beyond
coverage it extrapolates linearly with the final tempo scale and rounds
half-to-even. -/
theorem C4_amended_nearest_tick (tbl : List ℚ) (scales : List (ℕ × ℚ)) (time : ℚ)
    (hsorted : tbl.Sorted (· ≤ ·)) :
    (searchsortedLeft tbl time < tbl.length →
      ∃ r : ℕ,
        timeToTick tbl scales time = (r : ℤ) ∧
        (r = searchsortedLeft tbl time ∨
          (searchsortedLeft tbl time ≠ 0 ∧ r = searchsortedLeft tbl time - 1)) ∧
        (∀ j < tbl.length, |time - tbl.getD r 0| ≤ |time - tbl.getD j 0|) ∧
        (searchsortedLeft tbl time ≠ 0 →
          |time - tbl.getD (searchsortedLeft tbl time - 1) 0|
            = |time - tbl.getD (searchsortedLeft tbl time) 0| →
          r = searchsortedLeft tbl time)) ∧
    (searchsortedLeft tbl time = tbl.length →
      timeToTick tbl scales time
        = pyRound (((tbl.length - 1 : ℕ) : ℚ)
            + (time - tbl.getD (tbl.length - 1) 0)
              / (((scales.getLast?).map (·.2)).getD 0))) := by
  constructor
  · intro hk
    have hge : time ≤ tbl.getD (searchsortedLeft tbl time) 0 :=
      searchsortedLeft_ge time tbl hk
    have habove : ∀ j, searchsortedLeft tbl time ≤ j → j < tbl.length →
        |time - tbl.getD (searchsortedLeft tbl time) 0| ≤ |time - tbl.getD j 0| := by
      intro j hj hjl
      have h1 : tbl.getD (searchsortedLeft tbl time) 0 ≤ tbl.getD j 0 := by
        rcases Nat.eq_or_lt_of_le hj with rfl | hlt
        · exact le_refl _
        · exact sorted_getD_mono hsorted hlt hjl
      rw [abs_of_nonpos (by linarith), abs_of_nonpos (by linarith)]
      linarith
    by_cases hcond : searchsortedLeft tbl time ≠ 0 ∧
        |time - tbl.getD (searchsortedLeft tbl time - 1) 0|
          < |time - tbl.getD (searchsortedLeft tbl time) 0|
    · refine ⟨searchsortedLeft tbl time - 1, ?_, Or.inr ⟨hcond.1, rfl⟩, ?_, ?_⟩
      · simp only [timeToTick]
        rw [if_neg (by omega), if_pos hcond]
        have : searchsortedLeft tbl time ≠ 0 := hcond.1
        push_cast [Nat.cast_sub (by omega : 1 ≤ searchsortedLeft tbl time)]
        ring
      · intro j hjl
        rcases lt_or_le j (searchsortedLeft tbl time) with hj | hj
        · -- below the insertion point: both distances are on the left
          have hjlt : tbl.getD j 0 < time := searchsortedLeft_lt time tbl j hj
          have hrlt : tbl.getD (searchsortedLeft tbl time - 1) 0 < time :=
            searchsortedLeft_lt time tbl _ (by omega)
          have hmono : tbl.getD j 0 ≤ tbl.getD (searchsortedLeft tbl time - 1) 0 := by
            rcases Nat.eq_or_lt_of_le (by omega : j ≤ searchsortedLeft tbl time - 1)
              with rfl | hlt
            · exact le_refl _
            · exact sorted_getD_mono hsorted hlt (by omega)
          rw [abs_of_nonneg (by linarith), abs_of_nonneg (by linarith)]
          linarith
        · exact le_trans (le_of_lt hcond.2) (habove j hj hjl)
      · intro _ htie
        exact absurd (htie ▸ hcond.2) (lt_irrefl _)
    · refine ⟨searchsortedLeft tbl time, ?_, Or.inl rfl, ?_, fun _ _ => rfl⟩
      · simp only [timeToTick]
        rw [if_neg (by omega), if_neg hcond]
      · intro j hjl
        rcases lt_or_le j (searchsortedLeft tbl time) with hj | hj
        · have hk0 : searchsortedLeft tbl time ≠ 0 := by omega
          have hnotlt : ¬(|time - tbl.getD (searchsortedLeft tbl time - 1) 0|
              < |time - tbl.getD (searchsortedLeft tbl time) 0|) := by
            intro hl
            exact hcond ⟨hk0, hl⟩
          have hjlt : tbl.getD j 0 < time := searchsortedLeft_lt time tbl j hj
          have hrlt : tbl.getD (searchsortedLeft tbl time - 1) 0 < time :=
            searchsortedLeft_lt time tbl _ (by omega)
          have hmono : tbl.getD j 0 ≤ tbl.getD (searchsortedLeft tbl time - 1) 0 := by
            rcases Nat.eq_or_lt_of_le (by omega : j ≤ searchsortedLeft tbl time - 1)
              with rfl | hlt
            · exact le_refl _
            · exact sorted_getD_mono hsorted hlt (by omega)
          have h1 : |time - tbl.getD (searchsortedLeft tbl time - 1) 0|
              ≤ |time - tbl.getD j 0| := by
            rw [abs_of_nonneg (by linarith), abs_of_nonneg (by linarith)]
            linarith
          exact le_trans (not_lt.mp hnotlt) h1
        · exact habove j hj hjl
  · intro hk
    simp only [timeToTick]
    rw [if_pos hk, hk]

/-- Witness for C4 (amended) on the sorted table `[0, 1]` at time `0`. -/
theorem C4_amended_nearest_tick_witness :
    List.Sorted (· ≤ ·) [(0 : ℚ), 1] ∧
      searchsortedLeft [(0 : ℚ), 1] 0 < ([(0 : ℚ), 1]).length ∧
      ∃ r : ℕ,
        timeToTick [(0 : ℚ), 1] [(0, 1)] 0 = (r : ℤ) ∧
        (r = searchsortedLeft [(0 : ℚ), 1] 0 ∨
          (searchsortedLeft [(0 : ℚ), 1] 0 ≠ 0 ∧
            r = searchsortedLeft [(0 : ℚ), 1] 0 - 1)) ∧
        (∀ j < ([(0 : ℚ), 1]).length,
          |(0 : ℚ) - [(0 : ℚ), 1].getD r 0| ≤ |(0 : ℚ) - [(0 : ℚ), 1].getD j 0|) ∧
        (searchsortedLeft [(0 : ℚ), 1] 0 ≠ 0 →
          |(0 : ℚ) - [(0 : ℚ), 1].getD (searchsortedLeft [(0 : ℚ), 1] 0 - 1) 0|
            = |(0 : ℚ) - [(0 : ℚ), 1].getD (searchsortedLeft [(0 : ℚ), 1] 0) 0| →
          r = searchsortedLeft [(0 : ℚ), 1] 0) := by
  have hsorted : List.Sorted (· ≤ ·) [(0 : ℚ), 1] := by
    norm_num [List.Sorted, List.pairwise_cons]
  have hk : searchsortedLeft [(0 : ℚ), 1] 0 < ([(0 : ℚ), 1]).length := by
    norm_num [searchsortedLeft_cons, searchsortedLeft]
  exact ⟨hsorted, hk,
    (C4_amended_nearest_tick [(0 : ℚ), 1] [(0, 1)] 0 hsorted).1 hk⟩

end Fortepyan
